import Mathlib

/-!
Product-variant editor: variant generation, field updates and grouping.

A shallow embedding of `pages/index.js` (the `Dashboard` coordinator),
`components/VariantsManager.js` (option edits) and
`components/VariantsTable.js` (grouping, search, aggregates and selection),
followed by theorems about them.

JavaScript values are modelled as follows.

* Strings are `String`; the built-ins used by the source (`trim`, `parseFloat`)
  are defined on the character list of the string.
* Numbers are `JsNumber`: `NaN`, the two infinities, or a finite double carried
  as the rational it denotes.  `parseFloat` and `+` round their exact result to
  the nearest double, ties to even, with overflow to an infinity and gradual
  underflow (`roundToDouble`).  Negative zero is identified with zero (both are
  falsy, so `x || 0` never stores it).
* A plain object literal `{}` used as a dictionary is `PlainObject`: its own
  properties in creation order, property reads that fall through to
  `Object.prototype`, and the key order of `Object.entries`.
* The built-in `String.prototype.toLowerCase` is a parameter of the functions
  that call it; concrete evaluations use `asciiToLowerCase` on ASCII strings.
* React state cells are explicit arguments, and a queued state updater is the
  function it applies to the previous value.
-/

namespace ShopifyVariants

/-! ## Strings -/

/-- White space and line terminators as recognised by `String.prototype.trim`
and by the leading-blank skipping of `parseFloat`. -/
def isJsWhiteSpace (c : Char) : Bool :=
  let n := c.toNat
  n == 0x09 || n == 0x0A || n == 0x0B || n == 0x0C || n == 0x0D || n == 0x20 ||
  n == 0xA0 || n == 0x1680 || (0x2000 ≤ n && n ≤ 0x200A) || n == 0x2028 ||
  n == 0x2029 || n == 0x202F || n == 0x205F || n == 0x3000 || n == 0xFEFF

/-- Characters of a string with leading white space removed. -/
def trimStartChars (cs : List Char) : List Char :=
  cs.dropWhile isJsWhiteSpace

/-- Characters of a string with leading and trailing white space removed. -/
def trimChars (cs : List Char) : List Char :=
  ((trimStartChars cs).reverse.dropWhile isJsWhiteSpace).reverse

/-- The method `s.trim()`. -/
def jsTrim (s : String) : String :=
  ⟨trimChars s.data⟩

/-- Truthiness of a string: only the empty string is falsy. -/
def strTruthy (s : String) : Bool :=
  !s.data.isEmpty

/-! ## Numbers -/

/-- A JavaScript number. -/
inductive JsNumber where
  | nan : JsNumber
  | inf (negative : Bool) : JsNumber
  | fin (q : ℚ) : JsNumber
  deriving DecidableEq

namespace JsNumber

/-- The number `0`. -/
def zero : JsNumber := fin 0

/-- Truthiness of a number: `NaN` and zero are falsy. -/
def truthy : JsNumber → Bool
  | nan => false
  | inf _ => true
  | fin q => decide (q ≠ 0)

/-- The expression `x || 0` for a number `x`. -/
def orZero (x : JsNumber) : JsNumber :=
  if x.truthy then x else zero

/-- A number that is finite and not below zero. -/
def isNonNegative : JsNumber → Bool
  | fin q => decide (0 ≤ q)
  | _ => false

/-- A finite number with no fractional part that is not below zero. -/
def isNonNegativeInteger : JsNumber → Bool
  | fin q => decide (0 ≤ q) && decide (q.den = 1)
  | _ => false

end JsNumber

/-- The integer nearest to `num / den`, a tie going to the even neighbour. -/
def roundHalfEven (num den : Nat) : Nat :=
  let quotient := num / den
  let remainder := num % den
  if 2 * remainder < den then quotient
  else if den < 2 * remainder then quotient + 1
  else if quotient % 2 = 0 then quotient
  else quotient + 1

/-- Number of binary digits of `n`, computed by halving at most `fuel` times. -/
def bitLengthAux : Nat → Nat → Nat
  | 0, _ => 0
  | fuel + 1, n => if n = 0 then 0 else bitLengthAux fuel (n / 2) + 1

/-- Number of binary digits of `n`: `0` for `0`, and `k + 1` when
`2^k ≤ n < 2^(k+1)`. -/
def bitLength (n : Nat) : Nat :=
  bitLengthAux n n

/-- The exponent `e` with `2^e ≤ num / den < 2^(e+1)`, for positive `num` and
`den`. -/
def binaryExponent (num den : Nat) : Int :=
  let guess : Int := (bitLength num : Int) - (bitLength den : Int)
  let reached : Bool :=
    match guess with
    | Int.ofNat k => decide (den * 2 ^ k ≤ num)
    | Int.negSucc k => decide (den ≤ num * 2 ^ (k + 1))
  if reached then guess else guess - 1

/-- The double nearest to the magnitude `num / den` taken with the given sign:
53 significant bits for binary exponents from -1022 to 1023, multiples of
`2^-1074` below, an infinity from `2^1024` on. -/
def roundMagnitude (negative : Bool) (num den : Nat) : JsNumber :=
  if num = 0 then JsNumber.fin 0
  else
    let e := binaryExponent num den
    if 1024 ≤ e then JsNumber.inf negative
    else
      let ulpExponent : Int := (if e < -1022 then -1022 else e) - 52
      match ulpExponent with
      | Int.ofNat k =>
        let n := roundHalfEven num (den * 2 ^ k)
        if 2 ^ 1024 ≤ n * 2 ^ k then JsNumber.inf negative
        else
          JsNumber.fin (if negative then -((n * 2 ^ k : Nat) : ℚ) else ((n * 2 ^ k : Nat) : ℚ))
      | Int.negSucc k =>
        let n := roundHalfEven (num * 2 ^ (k + 1)) den
        JsNumber.fin
          (if negative then -(mkRat (n : Int) (2 ^ (k + 1))) else mkRat (n : Int) (2 ^ (k + 1)))

/-- The Number value of an exact rational: the nearest double, ties to even. -/
def roundToDouble (q : ℚ) : JsNumber :=
  roundMagnitude (decide (q.num < 0)) q.num.natAbs q.den

/-- Decimal digit test. -/
def isDecimalDigit (c : Char) : Bool :=
  48 ≤ c.toNat && c.toNat ≤ 57

/-- Value of a run of decimal digits read as a base-ten numeral. -/
def digitsValue (ds : List Char) : Nat :=
  ds.foldl (fun n c => 10 * n + (c.toNat - 48)) 0

/-- The value `m × 10^e` as a rational. -/
def scaleByTen (m : Nat) (e : Int) : ℚ :=
  match e with
  | Int.ofNat k => ((m * 10 ^ k : Nat) : ℚ)
  | Int.negSucc k => mkRat (m : Int) (10 ^ (k + 1))

/-- Value of the longest `ExponentPart` (`e`/`E`, optional sign, digits) that
starts the given characters, or `0` when none does. -/
def parseExponentPart (cs : List Char) : Int :=
  match cs with
  | [] => 0
  | c :: rest =>
    if c == 'e' || c == 'E' then
      let signed : Bool × List Char :=
        match rest with
        | '+' :: r => (false, r)
        | '-' :: r => (true, r)
        | r => (false, r)
      let ds := signed.2.takeWhile isDecimalDigit
      if ds.isEmpty then 0
      else if signed.1 then -(digitsValue ds : Int) else (digitsValue ds : Int)
    else 0

/-- Value of the longest prefix that is a `StrUnsignedDecimalLiteral`
(`Infinity`, `digits[.digits][exp]` or `.digits[exp]`), with `none` when no
prefix is one.  The result is `none` for no literal, `some none` for
`Infinity`, and `some (some q)` for a finite value. -/
def parseUnsignedLiteral (cs : List Char) : Option (Option ℚ) :=
  if "Infinity".data.isPrefixOf cs then some none
  else
    let intDigits := cs.takeWhile isDecimalDigit
    let rest := cs.dropWhile isDecimalDigit
    match rest with
    | '.' :: r =>
      let fracDigits := r.takeWhile isDecimalDigit
      let afterFrac := r.dropWhile isDecimalDigit
      if intDigits.isEmpty && fracDigits.isEmpty then none
      else
        some (some (scaleByTen (digitsValue (intDigits ++ fracDigits))
          (parseExponentPart afterFrac - (fracDigits.length : Int))))
    | _ =>
      if intDigits.isEmpty then none
      else some (some (scaleByTen (digitsValue intDigits) (parseExponentPart rest)))

/-- The optional sign in front of a decimal literal: whether it is a minus, and
the characters after it. -/
def splitSign (cs : List Char) : Bool × List Char :=
  match cs with
  | '+' :: r => (false, r)
  | '-' :: r => (true, r)
  | r => (false, r)

/-- The global function `parseFloat` on a string argument: skip leading white
space, read an optional sign, then the longest decimal literal, and return the
double nearest to its value; `NaN` when no literal starts there. -/
def parseFloat (s : String) : JsNumber :=
  let signed := splitSign (trimStartChars s.data)
  match parseUnsignedLiteral signed.2 with
  | none => JsNumber.nan
  | some none => JsNumber.inf signed.1
  | some (some q) => roundToDouble (if signed.1 then -q else q)

/-! ## Data model -/

/-- A product option: the objects `{ id, name, values }` built by `addOption`. -/
structure ProductOption where
  id : Nat
  name : String
  values : List String
  deriving DecidableEq

/-- A variant: the objects `{ id, combination, price, inventory }` built by
`generateVariants`. -/
structure Variant where
  id : Nat
  combination : List String
  price : JsNumber
  inventory : JsNumber
  deriving DecidableEq

/-- The two field names `VariantRow` passes to `onUpdate`. -/
inductive Field where
  | price : Field
  | inventory : Field
  deriving DecidableEq

/-! ## `pages/index.js` -/

/-- The callback of `options.filter` in `generateVariants`:
`!option.name.trim() || option.values.length === 0`. -/
def isInvalidOption (option : ProductOption) : Bool :=
  !strTruthy (jsTrim option.name) || option.values.length == 0

/-- The reducer of `options.reduce` in `generateVariants`. -/
def combineStep (acc : List (List String)) (option : ProductOption) : List (List String) :=
  if acc.length = 0 then option.values.map (fun value => [value])
  else acc.flatMap (fun combination => option.values.map (fun value => combination ++ [value]))

/-- The function `generateVariants` of `Dashboard`. -/
def generateVariants (options : List ProductOption) : List Variant :=
  if options.length = 0 then []
  else
    let invalidOptions := options.filter isInvalidOption
    if invalidOptions.length > 0 then []
    else
      let combinations := options.foldl combineStep []
      combinations.mapIdx (fun index combination =>
        { id := index + 1, combination := combination,
          price := JsNumber.zero, inventory := JsNumber.zero })

/-- The pair of `useState` cells of `Dashboard`. -/
structure DashboardState where
  options : List ProductOption
  variants : List Variant
  deriving DecidableEq

/-- The state after `useState([])` twice. -/
def initialState : DashboardState :=
  { options := [], variants := [] }

/-- The function `handleOptionsChange` of `Dashboard`: both cells are replaced. -/
def handleOptionsChange (_s : DashboardState) (newOptions : List ProductOption) :
    DashboardState :=
  { options := newOptions, variants := generateVariants newOptions }

/-- The object spread `{ ...variant, [field]: parseFloat(value) || 0 }`. -/
def setField (variant : Variant) (field : Field) (value : String) : Variant :=
  match field with
  | Field.price => { variant with price := (parseFloat value).orZero }
  | Field.inventory => { variant with inventory := (parseFloat value).orZero }

/-- The updater passed to `setVariants` by `handleVariantUpdate`, applied to the
previous variant list. -/
def handleVariantUpdate (prev : List Variant) (variantId : Nat) (field : Field)
    (value : String) : List Variant :=
  prev.map (fun variant =>
    if variant.id = variantId then setField variant field value else variant)

/-- Read of the named field of a variant. -/
def getField (variant : Variant) (field : Field) : JsNumber :=
  match field with
  | Field.price => variant.price
  | Field.inventory => variant.inventory

/-! ## `components/VariantsManager.js`

Each edit either returns early (`none`) or calls `onOptionsChange` with a new
option list (`some`). -/

/-- The function `addOption`; `now` is the value of `Date.now()`. -/
def addOption (options : List ProductOption) (now : Nat) : Option (List ProductOption) :=
  some (options ++ [{ id := now, name := "", values := [] }])

/-- The function `deleteOption`. -/
def deleteOption (options : List ProductOption) (optionId : Nat) :
    Option (List ProductOption) :=
  some (options.filter (fun option => option.id != optionId))

/-- The function `updateOptionName`. -/
def updateOptionName (options : List ProductOption) (optionId : Nat) (newName : String) :
    Option (List ProductOption) :=
  if !strTruthy (jsTrim newName) then none
  else
    some (options.map (fun option =>
      if option.id = optionId then { option with name := jsTrim newName } else option))

/-- The function `addValue`. -/
def addValue (options : List ProductOption) (optionId : Nat) (newValue : String) :
    Option (List ProductOption) :=
  if !strTruthy (jsTrim newValue) then none
  else
    let found := options.find? (fun opt => opt.id == optionId)
    let duplicate : Bool :=
      match found with
      | some option => option.values.contains (jsTrim newValue)
      | none => false
    if duplicate then none
    else
      some (options.map (fun option =>
        if option.id = optionId then
          { option with values := option.values ++ [jsTrim newValue] }
        else option))

/-- The call `values.filter((_, index) => index !== valueIndex)`. -/
def filterOutIndex (values : List String) (valueIndex : Nat) : List String :=
  (values.enum.filter (fun entry => entry.1 != valueIndex)).map Prod.snd

/-- The function `deleteValue`. -/
def deleteValue (options : List ProductOption) (optionId : Nat) (valueIndex : Nat) :
    Option (List ProductOption) :=
  some (options.map (fun option =>
    if option.id = optionId then
      { option with values := filterOutIndex option.values valueIndex }
    else option))

/-- The function `updateValue`. -/
def updateValue (options : List ProductOption) (optionId : Nat) (valueIndex : Nat)
    (newValue : String) : Option (List ProductOption) :=
  some (options.map (fun option =>
    if option.id = optionId then
      { option with
        values := option.values.mapIdx (fun index value =>
          if index = valueIndex then newValue else value) }
    else option))

/-! ## The editor as a transition system -/

/-- The events `Dashboard` reacts to: the six option edits of `VariantsManager`
and the field update of a `VariantRow`. -/
inductive Action where
  | addOption (now : Nat) : Action
  | deleteOption (optionId : Nat) : Action
  | updateOptionName (optionId : Nat) (newName : String) : Action
  | addValue (optionId : Nat) (newValue : String) : Action
  | deleteValue (optionId : Nat) (valueIndex : Nat) : Action
  | updateValue (optionId : Nat) (valueIndex : Nat) (newValue : String) : Action
  | variantUpdate (variantId : Nat) (field : Field) (value : String) : Action

/-- Effect of an option edit on the dashboard: an early return leaves the state
alone, a call of `onOptionsChange` runs `handleOptionsChange`. -/
def applyOptionsEdit (s : DashboardState) (edit : Option (List ProductOption)) :
    DashboardState :=
  match edit with
  | none => s
  | some newOptions => handleOptionsChange s newOptions

/-- One event applied to the dashboard state. -/
def step (s : DashboardState) : Action → DashboardState
  | Action.addOption now => applyOptionsEdit s (addOption s.options now)
  | Action.deleteOption optionId => applyOptionsEdit s (deleteOption s.options optionId)
  | Action.updateOptionName optionId newName =>
    applyOptionsEdit s (updateOptionName s.options optionId newName)
  | Action.addValue optionId newValue =>
    applyOptionsEdit s (addValue s.options optionId newValue)
  | Action.deleteValue optionId valueIndex =>
    applyOptionsEdit s (deleteValue s.options optionId valueIndex)
  | Action.updateValue optionId valueIndex newValue =>
    applyOptionsEdit s (updateValue s.options optionId valueIndex newValue)
  | Action.variantUpdate variantId field value =>
    { s with variants := handleVariantUpdate s.variants variantId field value }

/-- A sequence of events applied from a given state. -/
def run (s : DashboardState) (actions : List Action) : DashboardState :=
  actions.foldl step s

/-- States the dashboard can be in after some sequence of events. -/
inductive Reachable : DashboardState → Prop where
  | init : Reachable initialState
  | step (s : DashboardState) (a : Action) : Reachable s → Reachable (step s a)

/-- The data-model validity of a variant list: every price is a non-negative
number and every inventory a non-negative integer. -/
def variantsValid (variants : List Variant) : Bool :=
  variants.all (fun v => v.price.isNonNegative && v.inventory.isNonNegativeInteger)

/-! ## Plain objects used as dictionaries -/

/-- Names of the properties a plain object inherits from `Object.prototype`.
Every one of them holds a function, except the accessor `__proto__`, which reads
as the prototype object itself; all of these values are truthy and none has a
`push` method. -/
def objectPrototypeKeys : List String :=
  ["constructor", "hasOwnProperty", "isPrototypeOf", "propertyIsEnumerable",
   "toLocaleString", "toString", "valueOf", "__proto__", "__defineGetter__",
   "__defineSetter__", "__lookupGetter__", "__lookupSetter__"]

/-- An object created by the literal `{}` and filled by assignments
`obj[key] = value`: its own properties, in creation order. -/
structure PlainObject (α : Type) where
  own : List (String × α)
  deriving DecidableEq

/-- Outcome of the property read `obj[key]`. -/
inductive PropertyRead (α : Type) where
  | own (value : α) : PropertyRead α
  | inherited : PropertyRead α
  | undefined : PropertyRead α

namespace PlainObject

/-- The object `{}`. -/
def empty {α : Type} : PlainObject α :=
  { own := [] }

/-- The read `obj[key]`: an own property wins, then `Object.prototype`. -/
def get {α : Type} (obj : PlainObject α) (key : String) : PropertyRead α :=
  match obj.own.lookup key with
  | some value => PropertyRead.own value
  | none =>
    if objectPrototypeKeys.contains key then PropertyRead.inherited
    else PropertyRead.undefined

/-- Replacement of the value of an existing own property, keeping its place. -/
def replaceOwn {α : Type} (entries : List (String × α)) (key : String) (value : α) :
    List (String × α) :=
  entries.map (fun entry => if entry.1 = key then (key, value) else entry)

/-- The write `obj[key] = value` for a key that is not inherited: an existing
own property keeps its place, a new one is created last. -/
def set {α : Type} (obj : PlainObject α) (key : String) (value : α) : PlainObject α :=
  match obj.own.lookup key with
  | some _ => { own := replaceOwn obj.own key value }
  | none => { own := obj.own ++ [(key, value)] }

end PlainObject

/-- The array index a property key denotes, if it is one: the canonical decimal
numeral (no sign, no leading zero) of an integer below `2^32 - 1`. -/
def arrayIndex? (key : String) : Option Nat :=
  let cs := key.data
  if cs.isEmpty || !cs.all isDecimalDigit then none
  else if cs.length > 1 && cs.head? == some '0' then none
  else if digitsValue cs < 4294967295 then some (digitsValue cs)
  else none

/-- Order of two own properties whose keys are array indices. -/
def indexKeyLe {α : Type} (a b : String × α) : Prop :=
  (arrayIndex? a.1).getD 0 ≤ (arrayIndex? b.1).getD 0

instance {α : Type} : DecidableRel (indexKeyLe : String × α → String × α → Prop) :=
  fun a b => inferInstanceAs (Decidable ((arrayIndex? a.1).getD 0 ≤ (arrayIndex? b.1).getD 0))

/-- The call `Object.entries(obj)`: own properties whose keys are array indices
first, in ascending numeric order, then the other own properties in creation
order. -/
def objectEntries {α : Type} (obj : PlainObject α) : List (String × α) :=
  (obj.own.filter (fun entry => (arrayIndex? entry.1).isSome)).insertionSort indexKeyLe ++
    obj.own.filter (fun entry => (arrayIndex? entry.1).isNone)

/-- The call `Object.keys(obj)`. -/
def objectKeys {α : Type} (obj : PlainObject α) : List String :=
  (objectEntries obj).map Prod.fst

/-! ## `components/VariantsTable.js` -/

/-- Errors thrown while a function runs. -/
inductive JsError where
  | typeError : JsError
  deriving DecidableEq

/-- The two shapes `groupVariants` returns: the variant array itself, or the
object `grouped`. -/
inductive GroupResult where
  | flat (variants : List Variant) : GroupResult
  | grouped (obj : PlainObject (List Variant)) : GroupResult
  deriving DecidableEq

/-- The property key the expression `variant.combination[groupOptionIndex]`
denotes when used in `grouped[...]`: the string itself, or `"undefined"` when
the combination has no such position. -/
def groupKey (variant : Variant) (groupOptionIndex : Nat) : String :=
  match variant.combination[groupOptionIndex]? with
  | some value => value
  | none => "undefined"

/-- The body of `variants.forEach` in `groupVariants`. -/
def groupStep (groupOptionIndex : Nat) (grouped : PlainObject (List Variant))
    (variant : Variant) : Except JsError (PlainObject (List Variant)) :=
  let groupValue := groupKey variant groupOptionIndex
  let grouped1 :=
    match grouped.get groupValue with
    | PropertyRead.undefined => grouped.set groupValue []
    | _ => grouped
  match grouped1.get groupValue with
  | PropertyRead.own members => Except.ok (grouped1.set groupValue (members ++ [variant]))
  | _ => Except.error JsError.typeError

/-- The loop `variants.forEach(...)` of `groupVariants`, from a given object. -/
def groupLoop (groupOptionIndex : Nat) :
    PlainObject (List Variant) → List Variant → Except JsError (PlainObject (List Variant))
  | grouped, [] => Except.ok grouped
  | grouped, variant :: rest =>
    match groupStep groupOptionIndex grouped variant with
    | Except.ok grouped1 => groupLoop groupOptionIndex grouped1 rest
    | Except.error e => Except.error e

/-- The function `groupVariants` of `VariantsTable`, with the props `options`,
`variants` and the state cell `groupBy` as arguments. -/
def groupVariants (options : List ProductOption) (variants : List Variant)
    (groupBy : String) : Except JsError GroupResult :=
  if !strTruthy groupBy then Except.ok (GroupResult.flat variants)
  else
    match options.findIdx? (fun option => option.name == groupBy) with
    | none => Except.ok (GroupResult.flat variants)
    | some groupOptionIndex =>
      match groupLoop groupOptionIndex PlainObject.empty variants with
      | Except.ok grouped => Except.ok (GroupResult.grouped grouped)
      | Except.error e => Except.error e

/-- The groups in the order `VariantsTable` renders them,
`Object.entries(groupedVariants)`, when `groupVariants` returned an object. -/
def groupEntries (options : List ProductOption) (variants : List Variant)
    (groupBy : String) : Option (List (String × List Variant)) :=
  match groupVariants options variants groupBy with
  | Except.ok (GroupResult.grouped obj) => some (objectEntries obj)
  | _ => none

/-- The method `parts.join(separator)` on an array of strings, as characters. -/
def joinChars (separator : List Char) : List String → List Char
  | [] => []
  | [part] => part.data
  | part :: rest => part.data ++ separator ++ joinChars separator rest

/-- The method `parts.join(separator)` on an array of strings. -/
def jsJoin (parts : List String) (separator : String) : String :=
  ⟨joinChars separator.data parts⟩

/-- The test whether the characters `needle` occur contiguously in `haystack`. -/
def includesChars : List Char → List Char → Bool
  | [], needle => needle.isEmpty
  | c :: rest, needle => needle.isPrefixOf (c :: rest) || includesChars rest needle

/-- The method `text.includes(needle)`. -/
def jsIncludes (text needle : String) : Bool :=
  includesChars text.data needle.data

/-- The function `filterVariants` of `VariantsTable`, with the state cell
`searchTerm` as an argument.  The built-in `String.prototype.toLowerCase` is the
parameter `toLowerCase`. -/
def filterVariants (toLowerCase : String → String) (searchTerm : String)
    (variantsToFilter : List Variant) : List Variant :=
  if !strTruthy (jsTrim searchTerm) then variantsToFilter
  else
    variantsToFilter.filter (fun variant =>
      let variantText := toLowerCase (jsJoin variant.combination " ")
      jsIncludes variantText (toLowerCase searchTerm))

namespace JsNumber

/-- The sum `x + y` of two numbers: the exact sum of two finite values rounded
to the nearest double. -/
def add : JsNumber → JsNumber → JsNumber
  | nan, _ => nan
  | inf _, nan => nan
  | inf a, inf b => if a = b then inf a else nan
  | inf a, fin _ => inf a
  | fin _, nan => nan
  | fin _, inf b => inf b
  | fin p, fin q => roundToDouble (p + q)

end JsNumber

/-- The reduction `variants.reduce((sum, v) => sum + v.inventory, 0)`, used for
`totalInventory` in `VariantsTable` and for the inventory cell of a group
header in `GroupedVariants`. -/
def sumInventory (variants : List Variant) : JsNumber :=
  variants.foldl (fun sum variant => sum.add variant.inventory) JsNumber.zero

/-- The constant `totalInventory` of `VariantsTable`. -/
def totalInventory (variants : List Variant) : JsNumber :=
  sumInventory variants

/-- The state cells of `VariantsTable`; the set `expandedGroups` is kept as the
list of its members. -/
structure TableState where
  groupBy : String
  selectedVariants : List Nat
  searchTerm : String
  showSearch : Bool
  expandedGroups : List String

/-- The state cells right after `VariantsTable` is mounted. -/
def initialTableState (options : List ProductOption) : TableState :=
  { groupBy :=
      match options.head? with
      | some option => if strTruthy option.name then option.name else ""
      | none => "",
    selectedVariants := [],
    searchTerm := "",
    showSearch := false,
    expandedGroups := [] }

/-- The function `toggleVariantSelection`: the updater applied to the previous
selection. -/
def toggleVariantSelection (prev : List Nat) (variantId : Nat) : List Nat :=
  if prev.contains variantId then prev.filter (fun id => id != variantId)
  else prev ++ [variantId]

/-- The function `toggleSelectAll`: the updater applied to the previous
selection. -/
def toggleSelectAll (variants : List Variant) (prev : List Nat) : List Nat :=
  if prev.length = variants.length then [] else variants.map (fun v => v.id)

/-- The `onChange` handler of the checkbox of a group header,
`variants.forEach(v => onToggleSelection(v.id))`: the queued updaters run one
after the other. -/
def toggleGroupSelection (groupVariants : List Variant) (prev : List Nat) : List Nat :=
  groupVariants.foldl (fun selection v => toggleVariantSelection selection v.id) prev

/-- The `checked` attribute of the header checkbox. -/
def headerChecked (variants : List Variant) (selectedVariants : List Nat) : Bool :=
  selectedVariants.length == variants.length

/-- The props `groupName`, `variants` and `isExpanded` handed to one
`GroupedVariants` element. -/
structure GroupedVariantsProps where
  groupName : String
  variants : List Variant
  isExpanded : Bool
  deriving DecidableEq

/-- The callback mapped over `Object.entries(groupedVariants)`: `none` stands
for the `null` that `.filter(Boolean)` removes. -/
def renderGroup (toLowerCase : String → String) (state : TableState)
    (entry : String × List Variant) : Option GroupedVariantsProps :=
  let filteredGroupVariants := filterVariants toLowerCase state.searchTerm entry.2
  if filteredGroupVariants.length = 0 then none
  else
    some { groupName := entry.1, variants := filteredGroupVariants,
           isExpanded := state.expandedGroups.contains entry.1 }

/-- The `GroupedVariants` elements of the table body when `groupVariants`
returned the object `obj`. -/
def renderedGroups (toLowerCase : String → String) (state : TableState)
    (obj : PlainObject (List Variant)) : List GroupedVariantsProps :=
  (objectEntries obj).filterMap (renderGroup toLowerCase state)

/-- The inventory cell of a group header in `GroupedVariants`. -/
def groupHeaderInventory (props : GroupedVariantsProps) : JsNumber :=
  sumInventory props.variants

/-- The count shown in a group header, `variants.length`. -/
def groupHeaderCount (props : GroupedVariantsProps) : Nat :=
  props.variants.length

/-- The member rows of a group: `isExpanded && variants.map(...)`. -/
def groupMemberRows (props : GroupedVariantsProps) : List Variant :=
  if props.isExpanded then props.variants else []

/-- What one render of `VariantsTable` displays. -/
structure TableView where
  headerChecked : Bool
  groups : List GroupedVariantsProps
  rows : List Variant
  noMatchMessage : Bool
  totalInventory : JsNumber

/-- The body of the component `VariantsTable`: the props `options` and
`variants` and the state cells give the view, or the render throws. -/
def VariantsTable (toLowerCase : String → String) (options : List ProductOption)
    (variants : List Variant) (state : TableState) : Except JsError TableView :=
  match groupVariants options variants state.groupBy with
  | Except.error e => Except.error e
  | Except.ok groupedVariants =>
    let filteredVariants := filterVariants toLowerCase state.searchTerm variants
    Except.ok
      { headerChecked := headerChecked variants state.selectedVariants,
        groups :=
          match groupedVariants with
          | GroupResult.grouped obj => renderedGroups toLowerCase state obj
          | GroupResult.flat _ => [],
        rows :=
          match groupedVariants with
          | GroupResult.grouped _ => []
          | GroupResult.flat _ => filteredVariants,
        noMatchMessage := strTruthy (jsTrim state.searchTerm) && filteredVariants.length == 0,
        totalInventory := totalInventory variants }

/-- Lower-casing of the letters `A` to `Z`; it agrees with `toLowerCase` on
strings of ASCII characters. -/
def asciiToLowerCase (s : String) : String :=
  ⟨s.data.map (fun c => if 65 ≤ c.toNat && c.toNat ≤ 90 then Char.ofNat (c.toNat + 32) else c)⟩

/-! ## Specification vocabulary -/

/-- The Cartesian product of a sequence of value lists as lists of values, the
last list varying fastest. -/
def cartesian : List (List String) → List (List String)
  | [] => [[]]
  | values :: rest => values.flatMap (fun value => (cartesian rest).map (fun c => value :: c))

/-- An option is complete: its trimmed name is not empty and it has a value. -/
def isComplete (option : ProductOption) : Prop :=
  jsTrim option.name ≠ "" ∧ option.values ≠ []

instance : DecidablePred isComplete :=
  fun option => inferInstanceAs (Decidable (jsTrim option.name ≠ "" ∧ option.values ≠ []))

/-- The numbers of values of the options, in option order. -/
def valueCounts (options : List ProductOption) : List Nat :=
  options.map (fun option => option.values.length)

/-- The value position of option `i` in the tuple at position `k` of the
enumeration with the last option varying fastest:
`(k div (v_{i+1} * ... * v_n)) mod v_i`. -/
def valuePosition (counts : List Nat) (k i : Nat) : Nat :=
  (k / (counts.drop (i + 1)).prod) % counts.getD i 1

/-- The characters start with a decimal digit. -/
def startsWithDigit (cs : List Char) : Bool :=
  match cs with
  | c :: _ => isDecimalDigit c
  | [] => false

/-- The characters start with a dot followed by a decimal digit. -/
def startsWithDotDigit (cs : List Char) : Bool :=
  match cs with
  | '.' :: rest => startsWithDigit rest
  | _ => false

/-- A raw input with no numeric reading: after leading white space and an
optional sign it starts neither with a decimal digit, nor with a dot followed
by a decimal digit, nor with the word `Infinity`. -/
def isNonNumeric (raw : String) : Bool :=
  let body := (splitSign (trimStartChars raw.data)).2
  !(startsWithDigit body || startsWithDotDigit body || "Infinity".data.isPrefixOf body)

/-- Distinct strings of a list in order of first occurrence. -/
def firstSeen : List String → List String
  | [] => []
  | key :: rest => key :: (firstSeen rest).filter (fun other => other != key)

/-- Distinct group keys of a variant list in order of first occurrence. -/
def firstSeenKeys (variants : List Variant) (groupOptionIndex : Nat) : List String :=
  firstSeen (variants.map (fun v => groupKey v groupOptionIndex))

/-- The groups of a variant list by the value at one combination position: one
entry per distinct key, in order of first occurrence, holding the variants with
that key in their original order. -/
def groupsOf (variants : List Variant) (groupOptionIndex : Nat) :
    List (String × List Variant) :=
  (firstSeenKeys variants groupOptionIndex).map (fun key =>
    (key, variants.filter (fun v => groupKey v groupOptionIndex == key)))

/-- The string `needle` occurs in `text` as a substring. -/
def isSubstringOf (needle text : String) : Prop :=
  needle.data <:+: text.data

instance (needle text : String) : Decidable (isSubstringOf needle text) :=
  inferInstanceAs (Decidable (needle.data <:+: text.data))

/-- A variant matches a search term: the lower-cased term is a substring of the
lower-cased combination values joined, in order, by single spaces. -/
def matchesTerm (toLowerCase : String → String) (searchTerm : String) (variant : Variant) :
    Prop :=
  isSubstringOf (toLowerCase searchTerm) (toLowerCase (" ".intercalate variant.combination))

instance (toLowerCase : String → String) (searchTerm : String) (variant : Variant) :
    Decidable (matchesTerm toLowerCase searchTerm variant) :=
  inferInstanceAs (Decidable (isSubstringOf _ _))

/-- Option lists built from the empty list by `addOption` (with an id not in
use), `deleteOption`, `updateOptionName`, `addValue` and `deleteValue`. -/
inductive EditReachable : List ProductOption → Prop where
  | init : EditReachable []
  | addOption (options : List ProductOption) (now : Nat) (newOptions : List ProductOption) :
    EditReachable options → (∀ option ∈ options, option.id ≠ now) →
    addOption options now = some newOptions → EditReachable newOptions
  | deleteOption (options : List ProductOption) (optionId : Nat)
    (newOptions : List ProductOption) :
    EditReachable options → deleteOption options optionId = some newOptions →
    EditReachable newOptions
  | updateOptionName (options : List ProductOption) (optionId : Nat) (newName : String)
    (newOptions : List ProductOption) :
    EditReachable options → updateOptionName options optionId newName = some newOptions →
    EditReachable newOptions
  | addValue (options : List ProductOption) (optionId : Nat) (newValue : String)
    (newOptions : List ProductOption) :
    EditReachable options → addValue options optionId newValue = some newOptions →
    EditReachable newOptions
  | deleteValue (options : List ProductOption) (optionId : Nat) (valueIndex : Nat)
    (newOptions : List ProductOption) :
    EditReachable options → deleteValue options optionId valueIndex = some newOptions →
    EditReachable newOptions

/-- The option ids are pairwise distinct and every option's values are pairwise
distinct, non-empty strings. -/
def valuesWellFormed (options : List ProductOption) : Prop :=
  (options.map (fun o => o.id)).Nodup ∧
    ∀ option ∈ options, option.values.Nodup ∧ ∀ value ∈ option.values, value ≠ ""

/-- The option id an option edit is addressed to; `addOption` and the variant
update address none. -/
def Action.targetOptionId : Action → Option Nat
  | Action.deleteOption optionId => some optionId
  | Action.updateOptionName optionId _ => some optionId
  | Action.addValue optionId _ => some optionId
  | Action.deleteValue optionId _ => some optionId
  | Action.updateValue optionId _ _ => some optionId
  | Action.addOption _ => none
  | Action.variantUpdate _ _ _ => none

/-- The edit carries an input that is empty after trimming and has a guard
against it (`updateOptionName`, `addValue`). -/
def Action.hasBlankInput : Action → Bool
  | Action.updateOptionName _ newName => !strTruthy (jsTrim newName)
  | Action.addValue _ newValue => !strTruthy (jsTrim newValue)
  | _ => false

/-- Selections the table can hold for a fixed variant list: the empty selection
of a fresh table, followed by clicks on the checkbox of a current variant, on
the header checkbox, and on the checkbox of a group of current variants. -/
inductive SelectionReachable (variants : List Variant) : List Nat → Prop where
  | init : SelectionReachable variants []
  | toggle (selection : List Nat) (variant : Variant) :
    SelectionReachable variants selection → variant ∈ variants →
    SelectionReachable variants (toggleVariantSelection selection variant.id)
  | selectAll (selection : List Nat) :
    SelectionReachable variants selection →
    SelectionReachable variants (toggleSelectAll variants selection)
  | group (selection : List Nat) (members : List Variant) :
    SelectionReachable variants selection → (∀ v ∈ members, v ∈ variants) →
    SelectionReachable variants (toggleGroupSelection members selection)

/-- Every variant of the list is selected. -/
def allSelected (variants : List Variant) (selection : List Nat) : Prop :=
  ∀ v ∈ variants, v.id ∈ selection

instance (variants : List Variant) (selection : List Nat) :
    Decidable (allSelected variants selection) :=
  inferInstanceAs (Decidable (∀ v ∈ variants, v.id ∈ selection))

/-- The input holds a character that is no white space and occurs in no decimal
literal (a digit, a sign, a dot, an exponent mark, a letter of `Infinity`): it
is not the text of a number. -/
def hasForeignCharacter (raw : String) : Bool :=
  raw.data.any (fun c =>
    !(isDecimalDigit c || isJsWhiteSpace c || "+-.eEInfinity".data.contains c))

/-! ## Example inputs -/

/-- The option list of the Size/Color example. -/
def sizeColorOptions : List ProductOption :=
  [{ id := 1, name := "Size", values := ["S", "M"] },
   { id := 2, name := "Color", values := ["Red", "Blue"] }]

/-- An option list whose first option has a single value. -/
def oneSizeTwoColors : List ProductOption :=
  [{ id := 1, name := "Size", values := ["S"] },
   { id := 2, name := "Color", values := ["Red", "Blue"] }]

/-- The events of the run that creates the option `Size` with the value `S` and
then types `-5` into the price cell of the only variant. -/
def negativePriceRun : List Action :=
  [Action.addOption 1700000000000, Action.updateOptionName 1700000000000 "Size",
   Action.addValue 1700000000000 "S", Action.variantUpdate 1 Field.price "-5"]

/-- The events of the run that creates the option `Size` with the value `S` and
then types `2.5` into the inventory cell of the only variant. -/
def fractionalInventoryRun : List Action :=
  [Action.addOption 1700000000000, Action.updateOptionName 1700000000000 "Size",
   Action.addValue 1700000000000 "S", Action.variantUpdate 1 Field.inventory "2.5"]

/-- An option list whose only option still has the empty name `addOption` gave
it. -/
def unnamedOptions : List ProductOption :=
  [{ id := 1, name := "", values := ["S"] }]

/-- One variant with the combination `[S]`. -/
def oneVariant : List Variant :=
  [{ id := 1, combination := ["S"], price := JsNumber.zero, inventory := JsNumber.zero }]

/-- One variant whose combination is empty. -/
def shortVariant : List Variant :=
  [{ id := 1, combination := [], price := JsNumber.zero, inventory := JsNumber.zero }]

/-- Two options that carry the same name. -/
def sameNameOptions : List ProductOption :=
  [{ id := 1, name := "A", values := ["x"] }, { id := 2, name := "A", values := ["y"] }]

/-- A single option whose only value is the name of an inherited property. -/
def constructorOptions : List ProductOption :=
  [{ id := 1, name := "Size", values := ["constructor"] }]

/-- A single option whose values are written as integers, the larger one first. -/
def tenTwoOptions : List ProductOption :=
  [{ id := 1, name := "Size", values := ["10", "2"] }]

/-- The Size/Color variants after `5` was entered as the inventory of variant 1
and `7` as the inventory of variant 2. -/
def stockedVariants : List Variant :=
  handleVariantUpdate
    (handleVariantUpdate (generateVariants sizeColorOptions) 1 Field.inventory "5")
    2 Field.inventory "7"

/-- The table state of a fresh table on the Size/Color options. -/
def sizeGroupedState : TableState :=
  initialTableState sizeColorOptions

/-- The table state after typing `red` into the search box, selecting variant 1
and expanding the group `S`. -/
def redSearchState : TableState :=
  { groupBy := "Size", selectedVariants := [1], searchTerm := "red", showSearch := true,
    expandedGroups := ["S"] }

/-- The view a render returned, with an empty view standing in for a throw. -/
def viewOf (result : Except JsError TableView) : TableView :=
  match result with
  | Except.ok view => view
  | Except.error _ =>
    { headerChecked := false, groups := [], rows := [], noMatchMessage := false,
      totalInventory := JsNumber.zero }

/-- The events that create the option `Size` with the values `S` and `M` and
then overwrite the second value with `S`. -/
def repeatedValueRun : List Action :=
  [Action.addOption 1700000000000, Action.updateOptionName 1700000000000 "Size",
   Action.addValue 1700000000000 "S", Action.addValue 1700000000000 "M",
   Action.updateValue 1700000000000 1 "S"]

/-- The events that create the option `Size` with the value `S` and then enter
`12` as the price of the only variant. -/
def pricedRun : List Action :=
  [Action.addOption 1700000000000, Action.updateOptionName 1700000000000 "Size",
   Action.addValue 1700000000000 "S", Action.variantUpdate 1 Field.price "12"]

/-- The events that create the option `Size` whose only value is `toString`. -/
def inheritedNameRun : List Action :=
  [Action.addOption 1700000000000, Action.updateOptionName 1700000000000 "Size",
   Action.addValue 1700000000000 "toString"]

/-- The events that create the option `Size` with the values `S` and
`__proto__`. -/
def protoNameRun : List Action :=
  [Action.addOption 1700000000000, Action.updateOptionName 1700000000000 "Size",
   Action.addValue 1700000000000 "S", Action.addValue 1700000000000 "__proto__"]

/-- Two options that carry the same id, with one value each. -/
def sharedIdOptions : List ProductOption :=
  [{ id := 1, name := "A", values := ["a"] }, { id := 1, name := "B", values := ["b"] }]

/-- The events that create an option with the value `a`, create a second option
while `Date.now()` returns the same number, and then add `b`, delete the value
at index 1 and add `b` again. -/
def sharedIdRun : List Action :=
  [Action.addOption 1700000000000, Action.updateOptionName 1700000000000 "A",
   Action.addValue 1700000000000 "a", Action.addOption 1700000000000,
   Action.addValue 1700000000000 "b", Action.deleteValue 1700000000000 1,
   Action.addValue 1700000000000 "b"]

/-! ## Properties of `generateVariants` -/

theorem strTruthy_eq_true_iff (s : String) : strTruthy s = true ↔ s ≠ "" := by
  have hdata : s ≠ "" ↔ s.data ≠ [] := by
    constructor
    · intro h hd
      exact h (String.ext hd)
    · intro h hs
      exact h (by rw [hs])
  rw [hdata]
  cases hs : s.data <;> simp [strTruthy, hs]

theorem isInvalidOption_eq_false_iff (option : ProductOption) :
    isInvalidOption option = false ↔ isComplete option := by
  unfold isInvalidOption isComplete
  rw [Bool.or_eq_false_iff]
  constructor
  · rintro ⟨h1, h2⟩
    refine ⟨(strTruthy_eq_true_iff _).1 (by simpa using h1), ?_⟩
    intro h; simp [h] at h2
  · rintro ⟨h1, h2⟩
    refine ⟨by simpa using (strTruthy_eq_true_iff _).2 h1, ?_⟩
    cases hv : option.values with
    | nil => exact absurd hv h2
    | cons a l => simp

theorem filter_invalid_eq_nil (options : List ProductOption)
    (h : ∀ option ∈ options, isComplete option) : options.filter isInvalidOption = [] := by
  rw [List.filter_eq_nil_iff]
  intro o ho
  simp [(isInvalidOption_eq_false_iff o).2 (h o ho)]

theorem foldl_combineStep_of_ne_nil (rest : List ProductOption) :
    ∀ acc : List (List String), acc ≠ [] → (∀ option ∈ rest, option.values ≠ []) →
      rest.foldl combineStep acc =
        acc.flatMap (fun c => (cartesian (rest.map (fun o => o.values))).map (fun t => c ++ t)) := by
  induction rest with
  | nil => intro acc _ _; simp [cartesian]
  | cons o rest ih =>
    intro acc hacc hvals
    have ho : o.values ≠ [] := hvals o (List.mem_cons_self _ _)
    have hstep : combineStep acc o =
        acc.flatMap (fun c => o.values.map (fun v => c ++ [v])) := by
      unfold combineStep
      rw [if_neg (by simpa using hacc)]
    have hne : combineStep acc o ≠ [] := by
      rw [hstep]
      intro h
      rw [List.flatMap_eq_nil_iff] at h
      obtain ⟨c, hc⟩ := List.exists_mem_of_ne_nil acc hacc
      exact ho (by simpa using h c hc)
    rw [List.foldl_cons, ih _ hne (fun p hp => hvals p (List.mem_cons_of_mem _ hp)), hstep,
      List.flatMap_assoc]
    congr 1
    funext c
    simp only [List.map_cons, cartesian, List.flatMap_map, List.map_flatMap, List.map_map]
    congr 1
    funext v
    congr 1
    funext t
    simp

theorem foldl_combineStep_eq_cartesian (options : List ProductOption) (hne : options ≠ [])
    (hvals : ∀ option ∈ options, option.values ≠ []) :
    options.foldl combineStep [] = cartesian (options.map (fun o => o.values)) := by
  cases options with
  | nil => exact absurd rfl hne
  | cons o rest =>
    have ho : o.values ≠ [] := hvals o (List.mem_cons_self _ _)
    have hfirst : combineStep [] o = o.values.map (fun v => [v]) := by simp [combineStep]
    rw [List.foldl_cons, hfirst,
      foldl_combineStep_of_ne_nil rest _ (by simpa using ho)
        (fun p hp => hvals p (List.mem_cons_of_mem _ hp))]
    simp [cartesian, List.flatMap_map]

theorem length_cartesian (lists : List (List String)) :
    (cartesian lists).length = (lists.map List.length).prod := by
  induction lists with
  | nil => simp [cartesian]
  | cons values rest ih =>
    simp only [cartesian, List.map_cons, List.prod_cons]
    induction values with
    | nil => simp
    | cons v vs ihv =>
      simp only [List.flatMap_cons, List.length_append, List.length_map, ihv, ih,
        List.length_cons]
      ring

theorem length_of_mem_cartesian (lists : List (List String)) :
    ∀ c ∈ cartesian lists, c.length = lists.length := by
  induction lists with
  | nil => intro c hc; simp [cartesian] at hc; simp [hc]
  | cons values rest ih =>
    intro c hc
    simp only [cartesian, List.mem_flatMap, List.mem_map] at hc
    obtain ⟨v, _, t, ht, rfl⟩ := hc
    simp [ih t ht]

theorem getElem?_flatMap_of_length {α β : Type} (f : α → List β) (m : Nat) (hm : 0 < m) :
    ∀ (l : List α), (∀ a ∈ l, (f a).length = m) → ∀ k : Nat,
      (l.flatMap f)[k]? = (l[k / m]?).bind (fun a => (f a)[k % m]?) := by
  intro l
  induction l with
  | nil => intro _ k; simp
  | cons a l ih =>
    intro hlen k
    have ha : (f a).length = m := hlen a (List.mem_cons_self _ _)
    rw [List.flatMap_cons]
    by_cases hk : k < m
    · rw [List.getElem?_append_left (by omega)]
      simp [Nat.div_eq_of_lt hk, Nat.mod_eq_of_lt hk]
    · have hge : m ≤ k := Nat.le_of_not_lt hk
      rw [List.getElem?_append_right (by omega), ha,
        ih (fun b hb => hlen b (List.mem_cons_of_mem _ hb)) (k - m)]
      have hdiv : k / m = (k - m) / m + 1 := by
        rw [Nat.div_eq_sub_div hm hge]
      have hmod : (k - m) % m = k % m := by
        rw [Nat.mod_eq_sub_mod hge]
      rw [hdiv, hmod, List.getElem?_cons_succ]

theorem getElem?_cartesian_cons (values : List String) (rest : List (List String)) (k : Nat)
    (hpos : 0 < (rest.map List.length).prod) :
    (cartesian (values :: rest))[k]? =
      (values[k / (rest.map List.length).prod]?).bind (fun v =>
        ((cartesian rest)[k % (rest.map List.length).prod]?).map (fun c => v :: c)) := by
  simp only [cartesian]
  rw [getElem?_flatMap_of_length _ _ hpos values
    (fun a _ => by simp [length_cartesian])]
  simp

theorem div_mod_of_mul_dvd (a b M k : Nat) (h : a * b ∣ M) :
    (k % M / a) % b = (k / a) % b := by
  obtain ⟨t, rfl⟩ := h
  rcases Nat.eq_zero_or_pos a with ha | ha
  · subst ha; simp
  · have hk : k = k % (a * b * t) + a * (b * (t * (k / (a * b * t)))) := by
      have := Nat.mod_add_div k (a * b * t)
      calc k = k % (a * b * t) + a * b * t * (k / (a * b * t)) := this.symm
        _ = _ := by ring
    conv_rhs => rw [hk]
    rw [Nat.add_mul_div_left _ _ ha, Nat.add_mul_mod_self_left]

theorem drop_prod_mul_dvd_prod (counts : List Nat) (i : Nat) (hi : i < counts.length) :
    (counts.drop (i + 1)).prod * counts.getD i 1 ∣ counts.prod := by
  have h := List.prod_take_mul_prod_drop counts i
  rw [List.drop_eq_getElem_cons hi, List.prod_cons] at h
  rw [List.getD_eq_getElem _ _ hi]
  exact ⟨(counts.take i).prod, by rw [← h]; ring⟩

theorem valuePosition_zero (c : Nat) (counts : List Nat) (k : Nat) :
    valuePosition (c :: counts) k 0 = (k / counts.prod) % c := by
  simp [valuePosition]

theorem valuePosition_succ (c : Nat) (counts : List Nat) (k i : Nat) (hi : i < counts.length) :
    valuePosition (c :: counts) k (i + 1) = valuePosition counts (k % counts.prod) i := by
  simp only [valuePosition, List.drop_succ_cons, List.getD_cons_succ]
  exact (div_mod_of_mul_dvd _ _ _ _ (drop_prod_mul_dvd_prod counts i hi)).symm

theorem getElem?_cartesian (lists : List (List String)) :
    ∀ (k : Nat) (combo : List String), (cartesian lists)[k]? = some combo →
      ∀ (i : Nat) (values : List String), lists[i]? = some values →
        valuePosition (lists.map List.length) k i < values.length ∧
          combo[i]? = values[valuePosition (lists.map List.length) k i]? := by
  induction lists with
  | nil => intro k combo _ i values hi; simp at hi
  | cons vs rest ih =>
    intro k combo hc i values hi
    have hpos : 0 < (rest.map List.length).prod := by
      rcases Nat.eq_zero_or_pos (rest.map List.length).prod with h0 | h0
      · have hlen := length_cartesian (vs :: rest)
        simp only [List.map_cons, List.prod_cons, h0, Nat.mul_zero] at hlen
        have hk : k < (cartesian (vs :: rest)).length := by
          by_contra hge
          rw [List.getElem?_eq_none (by omega)] at hc
          exact absurd hc (by simp)
        omega
      · exact h0
    rw [getElem?_cartesian_cons vs rest k hpos] at hc
    cases hv : vs[k / (rest.map List.length).prod]? with
    | none => simp [hv] at hc
    | some v =>
      cases ht : (cartesian rest)[k % (rest.map List.length).prod]? with
      | none => simp [hv, ht] at hc
      | some t =>
        simp only [hv, ht, Option.some_bind, Option.map_some', Option.some.injEq] at hc
        subst hc
        have hlt : k / (rest.map List.length).prod < vs.length := by
          by_contra hge
          rw [List.getElem?_eq_none (by omega)] at hv
          exact absurd hv (by simp)
        cases i with
        | zero =>
          simp only [List.getElem?_cons_zero, Option.some.injEq] at hi
          subst hi
          simp only [List.map_cons, valuePosition_zero, Nat.mod_eq_of_lt hlt]
          exact ⟨hlt, by simp [hv]⟩
        | succ j =>
          simp only [List.getElem?_cons_succ] at hi
          have hj : j < (rest.map List.length).length := by
            by_contra hge
            rw [List.getElem?_eq_none (by simpa using hge)] at hi
            exact absurd hi (by simp)
          simp only [List.map_cons, valuePosition_succ _ _ _ _ hj, List.getElem?_cons_succ]
          exact ih _ t ht j values hi

theorem existsUnique_position (positions counts : List Nat)
    (h : List.Forall₂ (fun position count => position < count) positions counts) :
    ∃! k, k < counts.prod ∧
      ∀ i, i < counts.length → valuePosition counts k i = positions.getD i 0 := by
  induction h with
  | nil => exact ⟨0, by simp, fun k hk => by simpa using hk.1⟩
  | @cons d c ps rc hd _ ih =>
    obtain ⟨k1, ⟨hk1, hpos1⟩, huniq⟩ := ih
    have hR : 0 < rc.prod := by omega
    have hdiv : (k1 + rc.prod * d) / rc.prod = d := by
      rw [Nat.add_mul_div_left _ _ hR, Nat.div_eq_of_lt hk1, Nat.zero_add]
    have hmod : (k1 + rc.prod * d) % rc.prod = k1 := by
      rw [Nat.add_mul_mod_self_left, Nat.mod_eq_of_lt hk1]
    refine ⟨k1 + rc.prod * d, ⟨?_, ?_⟩, ?_⟩
    · rw [List.prod_cons]
      calc k1 + rc.prod * d < rc.prod + rc.prod * d := by omega
        _ = rc.prod * (d + 1) := by ring
        _ ≤ rc.prod * c := Nat.mul_le_mul_left _ hd
        _ = c * rc.prod := by ring
    · intro i hi
      cases i with
      | zero => rw [valuePosition_zero, hdiv, Nat.mod_eq_of_lt hd]; simp
      | succ j =>
        have hj : j < rc.length := by simpa using hi
        rw [valuePosition_succ _ _ _ _ hj, hmod, hpos1 j hj]; simp
    · rintro k2 ⟨hk2, hpos2⟩
      rw [List.prod_cons] at hk2
      have hq : k2 / rc.prod < c := Nat.div_lt_of_lt_mul (by rw [Nat.mul_comm]; exact hk2)
      have h0 := hpos2 0 (by simp)
      rw [valuePosition_zero, Nat.mod_eq_of_lt hq] at h0
      have hrest : k2 % rc.prod = k1 := by
        apply huniq
        refine ⟨Nat.mod_lt _ hR, fun j hj => ?_⟩
        have := hpos2 (j + 1) (by simpa using hj)
        rw [valuePosition_succ _ _ _ _ hj] at this
        simpa using this
      have := Nat.mod_add_div k2 rc.prod
      rw [hrest, h0] at this
      simp only [List.getD_cons_zero] at this
      exact this.symm

theorem generateVariants_eq_mapIdx (options : List ProductOption) (hne : options ≠ [])
    (hcomplete : ∀ option ∈ options, isComplete option) :
    generateVariants options =
      (cartesian (options.map (fun o => o.values))).mapIdx (fun index combination =>
        { id := index + 1, combination := combination,
          price := JsNumber.zero, inventory := JsNumber.zero }) := by
  unfold generateVariants
  rw [if_neg (by simpa using hne)]
  simp only [filter_invalid_eq_nil options hcomplete, List.length_nil, gt_iff_lt,
    Nat.lt_irrefl, if_false]
  rw [foldl_combineStep_eq_cartesian options hne (fun o ho => (hcomplete o ho).2)]

theorem length_generateVariants (options : List ProductOption) (hne : options ≠ [])
    (hcomplete : ∀ option ∈ options, isComplete option) :
    (generateVariants options).length = (valueCounts options).prod := by
  rw [generateVariants_eq_mapIdx options hne hcomplete, List.length_mapIdx, length_cartesian]
  simp [valueCounts, List.map_map, Function.comp_def]

theorem getElem?_generateVariants (options : List ProductOption) (hne : options ≠ [])
    (hcomplete : ∀ option ∈ options, isComplete option) (k : Nat) :
    (generateVariants options)[k]? =
      ((cartesian (options.map (fun o => o.values)))[k]?).map (fun combination =>
        { id := k + 1, combination := combination,
          price := JsNumber.zero, inventory := JsNumber.zero }) := by
  rw [generateVariants_eq_mapIdx options hne hcomplete, List.getElem?_mapIdx]

theorem generateVariants_eq_nil_of_invalid (options : List ProductOption)
    (h : options = [] ∨ ∃ option ∈ options, jsTrim option.name = "" ∨ option.values = []) :
    generateVariants options = [] := by
  unfold generateVariants
  rcases h with h | ⟨o, ho, hbad⟩
  · simp [h]
  · by_cases hlen : options.length = 0
    · rw [if_pos hlen]
    · rw [if_neg hlen]
      have hinv : isInvalidOption o = true := by
        by_contra hf
        have hc := (isInvalidOption_eq_false_iff o).1 (by simpa using hf)
        rcases hbad with hb | hb
        · exact hc.1 hb
        · exact hc.2 hb
      have hmem : o ∈ options.filter isInvalidOption := List.mem_filter.2 ⟨ho, hinv⟩
      have hpos : (options.filter isInvalidOption).length > 0 :=
        List.length_pos_of_mem hmem
      simp only [hpos, if_true]

/-- C1: for a non-empty sequence of complete options with value counts
`v1..vn`, `generateVariants` returns exactly `v1*...*vn` variants, the variant at
0-based position `k` has id `k+1` (the id list is `1..N`), and every
combination has one entry per option. -/
theorem generateVariants_count_ids_lengths (options : List ProductOption)
    (hne : options ≠ []) (hcomplete : ∀ option ∈ options, isComplete option) :
    (generateVariants options).length = (valueCounts options).prod ∧
      (∀ (k : Nat) (v : Variant), (generateVariants options)[k]? = some v → v.id = k + 1) ∧
      (generateVariants options).map (fun v => v.id) =
        List.range' 1 (valueCounts options).prod ∧
      (∀ v ∈ generateVariants options, v.combination.length = options.length) := by
  have hlen := length_generateVariants options hne hcomplete
  have hid : ∀ (k : Nat) (v : Variant), (generateVariants options)[k]? = some v →
      v.id = k + 1 := by
    intro k v hv
    rw [getElem?_generateVariants options hne hcomplete k] at hv
    cases hc : (cartesian (options.map (fun o => o.values)))[k]? with
    | none => simp [hc] at hv
    | some combo => simp [hc] at hv; rw [← hv]
  refine ⟨hlen, hid, ?_, ?_⟩
  · apply List.ext_getElem
    · simp [hlen]
    · intro k h1 h2
      rw [List.getElem_map, List.getElem_range']
      have := hid k _ (List.getElem?_eq_getElem (by simpa using h1))
      omega
  · intro v hv
    rw [generateVariants_eq_mapIdx options hne hcomplete] at hv
    obtain ⟨k, hk, hvk⟩ := List.getElem_of_mem hv
    rw [List.getElem_mapIdx] at hvk
    rw [← hvk]
    have := length_of_mem_cartesian (options.map (fun o => o.values)) _ (List.getElem_mem (by simpa using hk))
    simpa using this

theorem generateVariants_count_ids_lengths_witness :
    sizeColorOptions ≠ [] ∧ (∀ option ∈ sizeColorOptions, isComplete option) ∧
      ((generateVariants sizeColorOptions).length = (valueCounts sizeColorOptions).prod ∧
        (∀ (k : Nat) (v : Variant),
          (generateVariants sizeColorOptions)[k]? = some v → v.id = k + 1) ∧
        (generateVariants sizeColorOptions).map (fun v => v.id) =
          List.range' 1 (valueCounts sizeColorOptions).prod ∧
        (∀ v ∈ generateVariants sizeColorOptions,
          v.combination.length = sizeColorOptions.length)) :=
  ⟨by decide, by decide,
    generateVariants_count_ids_lengths sizeColorOptions (by decide) (by decide)⟩
theorem valueCounts_eq_map_length (options : List ProductOption) :
    (options.map (fun o => o.values)).map List.length = valueCounts options := by
  simp [valueCounts, List.map_map, Function.comp_def]

/-- C2: for a non-empty sequence of complete options the combinations are the
Cartesian product of the value lists in lexicographic order, last option fastest:
the variant at position `k` has `combination[i] = options[i].values[(k div
(v_{i+1}*...*v_n)) mod v_i]`; every tuple of value positions is the position
tuple of exactly one `k`; and `combination[i]` is a value of option `i`. -/
theorem generateVariants_lexicographic (options : List ProductOption)
    (hne : options ≠ []) (hcomplete : ∀ option ∈ options, isComplete option) :
    (∀ (k : Nat) (v : Variant) (i : Nat) (option : ProductOption),
        (generateVariants options)[k]? = some v → options[i]? = some option →
        valuePosition (valueCounts options) k i < option.values.length ∧
          v.combination[i]? = option.values[valuePosition (valueCounts options) k i]?) ∧
      (∀ positions : List Nat,
        List.Forall₂ (fun position count => position < count) positions
          (valueCounts options) →
        ∃! k, k < (generateVariants options).length ∧
          ∀ i, i < options.length →
            valuePosition (valueCounts options) k i = positions.getD i 0) ∧
      (∀ v ∈ generateVariants options, ∀ (i : Nat) (option : ProductOption),
        options[i]? = some option → ∃ value ∈ option.values, v.combination[i]? = some value) := by
  have hformula : ∀ (k : Nat) (v : Variant) (i : Nat) (option : ProductOption),
      (generateVariants options)[k]? = some v → options[i]? = some option →
      valuePosition (valueCounts options) k i < option.values.length ∧
        v.combination[i]? = option.values[valuePosition (valueCounts options) k i]? := by
    intro k v i option hv hi
    rw [getElem?_generateVariants options hne hcomplete k] at hv
    cases hc : (cartesian (options.map (fun o => o.values)))[k]? with
    | none => simp [hc] at hv
    | some combo =>
      simp only [hc, Option.map_some', Option.some.injEq] at hv
      have hget : (options.map (fun o => o.values))[i]? = some option.values := by
        simp [hi]
      have := getElem?_cartesian _ k combo hc i option.values hget
      rw [valueCounts_eq_map_length] at this
      rw [← hv]
      exact this
  refine ⟨hformula, ?_, ?_⟩
  · intro positions hpos
    have := existsUnique_position positions (valueCounts options) hpos
    rw [length_generateVariants options hne hcomplete]
    simpa [valueCounts] using this
  · intro v hv i option hi
    obtain ⟨k, hk, hvk⟩ := List.getElem_of_mem hv
    have hv' : (generateVariants options)[k]? = some v := by
      rw [List.getElem?_eq_getElem hk, hvk]
    obtain ⟨hlt, heq⟩ := hformula k v i option hv' hi
    refine ⟨option.values[valuePosition (valueCounts options) k i], List.getElem_mem _, ?_⟩
    rw [heq, List.getElem?_eq_getElem hlt]

theorem generateVariants_lexicographic_witness :
    (sizeColorOptions ≠ [] ∧ ∀ option ∈ sizeColorOptions, isComplete option) ∧
      generateVariants sizeColorOptions =
        [{ id := 1, combination := ["S", "Red"], price := JsNumber.zero,
           inventory := JsNumber.zero },
         { id := 2, combination := ["S", "Blue"], price := JsNumber.zero,
           inventory := JsNumber.zero },
         { id := 3, combination := ["M", "Red"], price := JsNumber.zero,
           inventory := JsNumber.zero },
         { id := 4, combination := ["M", "Blue"], price := JsNumber.zero,
           inventory := JsNumber.zero }] ∧
      (valuePosition (valueCounts sizeColorOptions) 2 0 < ["S", "M"].length ∧
        ["M", "Red"][0]? = ["S", "M"][valuePosition (valueCounts sizeColorOptions) 2 0]?) :=
  ⟨⟨by decide, by decide⟩, by decide,
    (generateVariants_lexicographic sizeColorOptions (by decide) (by decide)).1 2
      { id := 3, combination := ["M", "Red"], price := JsNumber.zero,
        inventory := JsNumber.zero } 0
      { id := 1, name := "Size", values := ["S", "M"] } (by decide) (by decide)⟩

/-- C3: `generateVariants` returns the empty list when the option list is
empty or holds an option whose trimmed name is empty or that has no value; and
the option list `deleteValue` produces by removing an option's only value
regenerates to no variants, whatever the other options are. -/
theorem generateVariants_fail_closed (options : List ProductOption) :
    ((options = [] ∨ ∃ option ∈ options, jsTrim option.name = "" ∨ option.values = []) →
        generateVariants options = []) ∧
      (∀ (optionId : Nat) (variants : List Variant),
        (∃ option ∈ options, option.id = optionId ∧ option.values.length = 1) →
        ∃ newOptions, deleteValue options optionId 0 = some newOptions ∧
          generateVariants newOptions = [] ∧
          (step (DashboardState.mk options variants)
            (Action.deleteValue optionId 0)).variants = []) := by
  refine ⟨generateVariants_eq_nil_of_invalid options, ?_⟩
  rintro optionId variants ⟨o, ho, hid, hlen⟩
  have hnil : generateVariants (options.map (fun option =>
      if option.id = optionId then
        { option with values := filterOutIndex option.values 0 }
      else option)) = [] := by
    apply generateVariants_eq_nil_of_invalid
    right
    refine ⟨{ o with values := filterOutIndex o.values 0 }, ?_, Or.inr ?_⟩
    · exact List.mem_map.2 ⟨o, ho, by simp [hid]⟩
    · cases hv : o.values with
      | nil => simp [filterOutIndex]
      | cons a rest =>
        rw [hv] at hlen
        have : rest = [] := by simpa using hlen
        subst this
        simp [filterOutIndex, List.enum, List.enumFrom]
  exact ⟨_, rfl, hnil, by simpa [step, applyOptionsEdit, deleteValue, handleOptionsChange] using hnil⟩

theorem generateVariants_fail_closed_witness :
    (∃ option ∈ oneSizeTwoColors, option.id = 1 ∧ option.values.length = 1) ∧
      ∃ newOptions,
        deleteValue oneSizeTwoColors 1 0 = some newOptions ∧
        generateVariants newOptions = [] ∧
        (step (DashboardState.mk oneSizeTwoColors []) (Action.deleteValue 1 0)).variants = [] :=
  ⟨by decide, (generateVariants_fail_closed oneSizeTwoColors).2 1 [] (by decide)⟩
/-! ## Properties of regeneration and of field updates -/

theorem generateVariants_defaults (options : List ProductOption) :
    ∀ v ∈ generateVariants options, v.price = JsNumber.zero ∧ v.inventory = JsNumber.zero := by
  intro v hv
  unfold generateVariants at hv
  split at hv
  · simp at hv
  · simp only [] at hv
    split at hv
    · simp at hv
    · obtain ⟨k, hk, hvk⟩ := List.getElem_of_mem hv
      rw [List.getElem_mapIdx] at hvk
      rw [← hvk]
      exact ⟨rfl, rfl⟩

/-- C4: regeneration discards all edits: whatever the prior state, after
`handleOptionsChange` the variant list is `generateVariants newOptions`, it is
the same for every prior state, and each of its variants has price 0 and
inventory 0. -/
theorem handleOptionsChange_discards_edits (s : DashboardState)
    (newOptions : List ProductOption) :
    (handleOptionsChange s newOptions).options = newOptions ∧
      (handleOptionsChange s newOptions).variants = generateVariants newOptions ∧
      (∀ s2 : DashboardState,
        (handleOptionsChange s2 newOptions).variants =
          (handleOptionsChange s newOptions).variants) ∧
      (∀ v ∈ (handleOptionsChange s newOptions).variants,
        v.price = JsNumber.zero ∧ v.inventory = JsNumber.zero) :=
  ⟨rfl, rfl, fun _ => rfl, generateVariants_defaults newOptions⟩

theorem handleOptionsChange_discards_edits_witness :
    (handleOptionsChange
        (DashboardState.mk sizeColorOptions
          (handleVariantUpdate (generateVariants sizeColorOptions) 3 Field.price "12"))
        oneSizeTwoColors).variants = generateVariants oneSizeTwoColors :=
  (handleOptionsChange_discards_edits
    (DashboardState.mk sizeColorOptions
      (handleVariantUpdate (generateVariants sizeColorOptions) 3 Field.price "12"))
    oneSizeTwoColors).2.1

theorem setField_frame (v : Variant) (field : Field) (value : String) :
    (setField v field value).id = v.id ∧
      (setField v field value).combination = v.combination ∧
      getField (setField v field value) field = (parseFloat value).orZero ∧
      ∀ other : Field, other ≠ field →
        getField (setField v field value) other = getField v other := by
  cases field
  · refine ⟨rfl, rfl, rfl, ?_⟩
    intro other h
    cases other
    · exact absurd rfl h
    · rfl
  · refine ⟨rfl, rfl, rfl, ?_⟩
    intro other h
    cases other
    · rfl
    · exact absurd rfl h

theorem getElem?_handleVariantUpdate (variants : List Variant) (variantId : Nat)
    (field : Field) (value : String) (k : Nat) :
    (handleVariantUpdate variants variantId field value)[k]? =
      (variants[k]?).map (fun variant =>
        if variant.id = variantId then setField variant field value else variant) := by
  simp [handleVariantUpdate]

/-- C5: `handleVariantUpdate` keeps the length and the order of the variant
list; at every position a variant with another id is returned unchanged, and a
variant with the given id keeps its id, its combination and its other numeric
field; when no variant has the id the list is returned as it was. -/
theorem handleVariantUpdate_frame (variants : List Variant) (variantId : Nat)
    (field : Field) (value : String) :
    (handleVariantUpdate variants variantId field value).length = variants.length ∧
      (∀ (k : Nat) (v : Variant), variants[k]? = some v →
        ∃ v2, (handleVariantUpdate variants variantId field value)[k]? = some v2 ∧
          (v.id ≠ variantId → v2 = v) ∧
          (v.id = variantId →
            v2.id = v.id ∧ v2.combination = v.combination ∧
              ∀ other : Field, other ≠ field → getField v2 other = getField v other)) ∧
      ((∀ v ∈ variants, v.id ≠ variantId) →
        handleVariantUpdate variants variantId field value = variants) := by
  refine ⟨by simp [handleVariantUpdate], ?_, ?_⟩
  · intro k v hv
    rw [getElem?_handleVariantUpdate, hv]
    by_cases hid : v.id = variantId
    · refine ⟨setField v field value, by simp [hid], fun h => absurd hid h, fun _ => ?_⟩
      have := setField_frame v field value
      exact ⟨this.1, this.2.1, this.2.2.2⟩
    · exact ⟨v, by simp [hid], fun _ => rfl, fun h => absurd h hid⟩
  · intro hno
    unfold handleVariantUpdate
    conv_rhs => rw [← List.map_id variants]
    apply List.map_congr_left
    intro v hv
    simp [hno v hv]

theorem handleVariantUpdate_frame_witness :
    (∀ v ∈ generateVariants sizeColorOptions, v.id ≠ 7) ∧
      handleVariantUpdate (generateVariants sizeColorOptions) 7 Field.price "12" =
        generateVariants sizeColorOptions :=
  ⟨by decide,
    (handleVariantUpdate_frame (generateVariants sizeColorOptions) 7 Field.price "12").2.2
      (by decide)⟩
theorem takeWhile_digit_of_not_startsWithDigit (cs : List Char)
    (h : startsWithDigit cs = false) :
    cs.takeWhile isDecimalDigit = [] ∧ cs.dropWhile isDecimalDigit = cs := by
  cases cs with
  | nil => simp
  | cons c rest =>
    have hc : isDecimalDigit c = false := by simpa [startsWithDigit] using h
    simp [List.takeWhile, List.dropWhile, hc]

theorem parseUnsignedLiteral_eq_none (body : List Char)
    (hdigit : startsWithDigit body = false) (hdot : startsWithDotDigit body = false)
    (hinf : "Infinity".data.isPrefixOf body = false) :
    parseUnsignedLiteral body = none := by
  unfold parseUnsignedLiteral
  rw [if_neg (by simp [hinf])]
  obtain ⟨htake, hdrop⟩ := takeWhile_digit_of_not_startsWithDigit body hdigit
  simp only [htake, hdrop]
  split
  next _ r =>
    have hr : startsWithDigit r = false := by
      simpa [startsWithDotDigit] using hdot
    simp [(takeWhile_digit_of_not_startsWithDigit r hr).1]
  next => simp

theorem parseFloat_of_isNonNumeric (raw : String) (h : isNonNumeric raw = true) :
    parseFloat raw = JsNumber.nan := by
  unfold isNonNumeric at h
  simp only [Bool.not_eq_true', Bool.or_eq_false_iff] at h
  obtain ⟨⟨h1, h2⟩, h3⟩ := h
  unfold parseFloat
  simp only [parseUnsignedLiteral_eq_none _ h1 h2 h3]

theorem takeWhile_digit_ne_nil_of_startsWithDigit (cs : List Char)
    (h : startsWithDigit cs = true) : (cs.takeWhile isDecimalDigit).isEmpty = false := by
  cases cs with
  | nil => simp [startsWithDigit] at h
  | cons c rest =>
    have hc : isDecimalDigit c = true := by simpa [startsWithDigit] using h
    simp [List.takeWhile, hc]

theorem parseUnsignedLiteral_ne_none (body : List Char)
    (h : startsWithDigit body = true ∨ startsWithDotDigit body = true ∨
      "Infinity".data.isPrefixOf body = true) :
    parseUnsignedLiteral body ≠ none := by
  unfold parseUnsignedLiteral
  by_cases hinf : "Infinity".data.isPrefixOf body = true
  · rw [if_pos hinf]; simp
  · rw [if_neg hinf]
    rcases h with h | h | h
    · have hint := takeWhile_digit_ne_nil_of_startsWithDigit body h
      simp only [hint, Bool.false_and, Bool.false_eq_true, if_false]
      split <;> simp
    · cases body with
      | nil => simp [startsWithDotDigit] at h
      | cons c rest =>
        by_cases hc : c = '.'
        · subst hc
          have hrest : startsWithDigit rest = true := by simpa [startsWithDotDigit] using h
          have hfrac := takeWhile_digit_ne_nil_of_startsWithDigit rest hrest
          have hdot : isDecimalDigit '.' = false := by decide
          simp [List.takeWhile, List.dropWhile, hdot, hfrac]
        · exfalso
          unfold startsWithDotDigit at h
          split at h
          · rename_i heq
            injection heq with h1 _
            exact hc h1
          · simp at h
    · exact absurd h hinf

theorem roundMagnitude_ne_nan (negative : Bool) (num den : Nat) :
    roundMagnitude negative num den ≠ JsNumber.nan := by
  unfold roundMagnitude
  split
  · simp
  · simp only
    split
    · simp
    · split
      · split <;> simp
      · simp

theorem roundToDouble_ne_nan (q : ℚ) : roundToDouble q ≠ JsNumber.nan :=
  roundMagnitude_ne_nan _ _ _

/-- The predicate `isNonNumeric` holds exactly of the inputs `parseFloat` reads
as `NaN`. -/
theorem parseFloat_eq_nan_iff (raw : String) :
    parseFloat raw = JsNumber.nan ↔ isNonNumeric raw = true := by
  constructor
  · intro h
    by_contra hnot
    have hcases : startsWithDigit (splitSign (trimStartChars raw.data)).2 = true ∨
        startsWithDotDigit (splitSign (trimStartChars raw.data)).2 = true ∨
        "Infinity".data.isPrefixOf (splitSign (trimStartChars raw.data)).2 = true := by
      unfold isNonNumeric at hnot
      simp only [Bool.not_eq_true', Bool.not_eq_false, Bool.or_eq_true] at hnot
      rcases hnot with (h1 | h1) | h1
      · exact Or.inl h1
      · exact Or.inr (Or.inl h1)
      · exact Or.inr (Or.inr h1)
    have hsome := parseUnsignedLiteral_ne_none _ hcases
    unfold parseFloat at h
    simp only at h
    split at h
    · rename_i hnone
      exact hsome hnone
    · simp at h
    · exact roundToDouble_ne_nan _ h
  · exact parseFloat_of_isNonNumeric raw

/-- C6 (as amended): when the variant list holds a variant with the given id
and the raw input has no numeric prefix (after leading white space and an
optional sign it starts with no digit, no dot followed by a digit and not with
`Infinity`), `handleVariantUpdate` returns a list (no error path exists) in which
every variant with that id has the named field equal to 0. -/
theorem handleVariantUpdate_nonNumeric (variants : List Variant) (variantId : Nat)
    (field : Field) (raw : String) (hmem : ∃ v ∈ variants, v.id = variantId)
    (hraw : isNonNumeric raw = true) :
    (∃ v2 ∈ handleVariantUpdate variants variantId field raw, v2.id = variantId) ∧
      ∀ v2 ∈ handleVariantUpdate variants variantId field raw, v2.id = variantId →
        getField v2 field = JsNumber.zero := by
  have hset : ∀ v : Variant, getField (setField v field raw) field = JsNumber.zero := by
    intro v
    rw [(setField_frame v field raw).2.2.1, parseFloat_of_isNonNumeric raw hraw]
    rfl
  constructor
  · obtain ⟨v, hv, hid⟩ := hmem
    refine ⟨setField v field raw, ?_, by rw [(setField_frame v field raw).1, hid]⟩
    exact List.mem_map.2 ⟨v, hv, by simp [hid]⟩
  · intro v2 hv2 hid2
    obtain ⟨v, hv, rfl⟩ := List.mem_map.1 hv2
    by_cases hid : v.id = variantId
    · simp only [hid, if_true]
      exact hset v
    · simp only [hid, if_false] at hid2

theorem handleVariantUpdate_nonNumeric_witness :
    ((∃ v ∈ handleVariantUpdate (generateVariants sizeColorOptions) 3 Field.price "12",
        v.id = 3) ∧ isNonNumeric "abc" = true) ∧
      ((handleVariantUpdate (generateVariants sizeColorOptions) 3 Field.price "12").map
          (fun v => v.price) =
        [JsNumber.fin 0, JsNumber.fin 0, JsNumber.fin 12, JsNumber.fin 0]) ∧
      ((∃ v2 ∈ handleVariantUpdate
            (handleVariantUpdate (generateVariants sizeColorOptions) 3 Field.price "12")
            3 Field.price "abc", v2.id = 3) ∧
        ∀ v2 ∈ handleVariantUpdate
            (handleVariantUpdate (generateVariants sizeColorOptions) 3 Field.price "12")
            3 Field.price "abc", v2.id = 3 → getField v2 Field.price = JsNumber.zero) :=
  ⟨⟨by decide, by decide⟩, by decide,
    handleVariantUpdate_nonNumeric
      (handleVariantUpdate (generateVariants sizeColorOptions) 3 Field.price "12")
      3 Field.price "abc" (by decide) (by decide)⟩
/-- C6 (the claim as stated fails): the inputs `12abc`, `1,5` and `5 apples`
are not the text of a number, yet `parseFloat` reads the number in front and
`handleVariantUpdate` sets the price of variant 3 to 12, to 1 and to 5. -/
theorem handleVariantUpdate_numeric_prefix_counterexample :
    (hasForeignCharacter "12abc" = true ∧
        (handleVariantUpdate (generateVariants sizeColorOptions) 3 Field.price "12abc").map
          (fun v => (v.id, v.price)) =
            [(1, JsNumber.fin 0), (2, JsNumber.fin 0), (3, JsNumber.fin 12),
             (4, JsNumber.fin 0)]) ∧
      (hasForeignCharacter "1,5" = true ∧
        (handleVariantUpdate (generateVariants sizeColorOptions) 3 Field.price "1,5").map
          (fun v => (v.id, v.price)) =
            [(1, JsNumber.fin 0), (2, JsNumber.fin 0), (3, JsNumber.fin 1),
             (4, JsNumber.fin 0)]) ∧
      (hasForeignCharacter "5 apples" = true ∧
        (handleVariantUpdate (generateVariants sizeColorOptions) 3 Field.inventory
            "5 apples").map (fun v => (v.id, v.inventory)) =
            [(1, JsNumber.fin 0), (2, JsNumber.fin 0), (3, JsNumber.fin 5),
             (4, JsNumber.fin 0)]) := by
  refine ⟨⟨by decide, by decide⟩, ⟨by decide, by decide⟩, ⟨by decide, by decide⟩⟩

/-! ## The editor as a transition system: validity of the data model -/

theorem reachable_run (s : DashboardState) (actions : List Action) (h : Reachable s) :
    Reachable (run s actions) := by
  induction actions generalizing s with
  | nil => exact h
  | cons a rest ih => exact ih (step s a) (Reachable.step s a h)

theorem orZero_ne_nan (x : JsNumber) : x.orZero ≠ JsNumber.nan := by
  cases x with
  | nan => simp [JsNumber.orZero, JsNumber.truthy, JsNumber.zero]
  | inf negative => simp [JsNumber.orZero, JsNumber.truthy]
  | fin q =>
    unfold JsNumber.orZero
    split <;> simp [JsNumber.zero]

theorem applyOptionsEdit_fields_not_nan (s : DashboardState)
    (edit : Option (List ProductOption))
    (h : ∀ v ∈ s.variants, v.price ≠ JsNumber.nan ∧ v.inventory ≠ JsNumber.nan) :
    ∀ v ∈ (applyOptionsEdit s edit).variants,
      v.price ≠ JsNumber.nan ∧ v.inventory ≠ JsNumber.nan := by
  cases edit with
  | none => exact h
  | some newOptions =>
    intro v hv
    have := generateVariants_defaults newOptions v hv
    rw [this.1, this.2]
    simp [JsNumber.zero]

/-- In every reachable state no price and no inventory is `NaN`: this is what
the guard `parseFloat(value) || 0` of `handleVariantUpdate` secures. -/
theorem reachable_fields_not_nan (s : DashboardState) (h : Reachable s) :
    ∀ v ∈ s.variants, v.price ≠ JsNumber.nan ∧ v.inventory ≠ JsNumber.nan := by
  induction h with
  | init => intro v hv; simp [initialState] at hv
  | step s a _ ih =>
    cases a with
    | variantUpdate variantId field value =>
      intro v hv
      obtain ⟨w, hw, rfl⟩ := List.mem_map.1 hv
      by_cases hid : w.id = variantId
      · simp only [hid, if_true]
        cases field
        · exact ⟨orZero_ne_nan _, (ih w hw).2⟩
        · exact ⟨(ih w hw).1, orZero_ne_nan _⟩
      · simp only [hid, if_false]
        exact ih w hw
    | addOption now => exact applyOptionsEdit_fields_not_nan s _ ih
    | deleteOption optionId => exact applyOptionsEdit_fields_not_nan s _ ih
    | updateOptionName optionId newName => exact applyOptionsEdit_fields_not_nan s _ ih
    | addValue optionId newValue => exact applyOptionsEdit_fields_not_nan s _ ih
    | deleteValue optionId valueIndex => exact applyOptionsEdit_fields_not_nan s _ ih
    | updateValue optionId valueIndex newValue => exact applyOptionsEdit_fields_not_nan s _ ih

/-- C7 (the code at the failing inputs): the state after creating the option
`Size` with the value `S` and sending `-5` as the price of variant 1 is
reachable and holds a negative price; the state after sending `2.5` as its
inventory is reachable and holds a fractional inventory.  Both states violate
the validity of the data model. -/
theorem variantUpdate_breaks_validity :
    (Reachable (run initialState negativePriceRun) ∧
        (run initialState negativePriceRun).variants =
          [{ id := 1, combination := ["S"], price := JsNumber.fin (-5),
             inventory := JsNumber.fin 0 }] ∧
        variantsValid (run initialState negativePriceRun).variants = false) ∧
      (Reachable (run initialState fractionalInventoryRun) ∧
        (run initialState fractionalInventoryRun).variants =
          [{ id := 1, combination := ["S"], price := JsNumber.fin 0,
             inventory := JsNumber.fin (mkRat 5 2) }] ∧
        variantsValid (run initialState fractionalInventoryRun).variants = false) :=
  ⟨⟨reachable_run _ _ Reachable.init, by decide, by decide⟩,
    ⟨reachable_run _ _ Reachable.init, by decide, by decide⟩⟩
/-! ## Properties of `groupVariants` -/

theorem mem_firstSeen (keys : List String) (key : String) :
    key ∈ firstSeen keys ↔ key ∈ keys := by
  induction keys with
  | nil => simp [firstSeen]
  | cons a rest ih =>
    simp only [firstSeen, List.mem_cons, List.mem_filter, ih, bne_iff_ne, ne_eq]
    constructor
    · rintro (h | ⟨h, _⟩)
      · exact Or.inl h
      · exact Or.inr h
    · rintro (h | h)
      · exact Or.inl h
      · by_cases hk : key = a
        · exact Or.inl hk
        · exact Or.inr ⟨h, hk⟩

theorem nodup_firstSeen (keys : List String) : (firstSeen keys).Nodup := by
  induction keys with
  | nil => simp [firstSeen]
  | cons a rest ih =>
    simp only [firstSeen, List.nodup_cons, List.mem_filter, bne_self_eq_false, and_false,
      not_false_eq_true, true_and, Bool.false_eq_true]
    exact ih.filter _

theorem firstSeen_append_singleton (keys : List String) (key : String) :
    firstSeen (keys ++ [key]) =
      if key ∈ keys then firstSeen keys else firstSeen keys ++ [key] := by
  induction keys with
  | nil => simp [firstSeen]
  | cons a rest ih =>
    have hunfold : firstSeen (a :: rest ++ [key]) =
        a :: (firstSeen (rest ++ [key])).filter (fun other => other != a) := rfl
    rw [hunfold, ih]
    by_cases hr : key ∈ rest
    · simp [hr, firstSeen]
    · by_cases ha : key = a
      · subst ha
        simp [hr, firstSeen, List.filter_append]
      · simp [hr, ha, firstSeen, List.filter_append]

theorem lookup_append_new {β : Type} (entries : List (String × β)) (key : String) (value : β)
    (h : ∀ entry ∈ entries, entry.1 ≠ key) :
    (entries ++ [(key, value)]).lookup key = some value := by
  induction entries with
  | nil => simp [List.lookup]
  | cons e rest ih =>
    have hne : (key == e.1) = false := by
      have := h e (List.mem_cons_self _ _)
      simpa using fun hk => this hk.symm
    obtain ⟨k, v⟩ := e
    simp only [List.cons_append, List.lookup_cons]
    simp only at hne
    rw [hne]
    exact ih (fun entry hentry => h entry (List.mem_cons_of_mem _ hentry))

theorem lookup_map_pair {β : Type} (keys : List String) (f : String → β) (key : String) :
    (keys.map (fun k => (k, f k))).lookup key = if key ∈ keys then some (f key) else none := by
  induction keys with
  | nil => simp
  | cons a rest ih =>
    simp only [List.map_cons, List.lookup_cons, List.mem_cons]
    by_cases ha : key = a
    · subst ha; simp
    · have : (key == a) = false := by simpa using ha
      simp [this, ih, ha]

theorem replaceOwn_map_pair {β : Type} (keys : List String) (f : String → β) (key : String)
    (value : β) :
    PlainObject.replaceOwn (keys.map (fun k => (k, f k))) key value =
      keys.map (fun k => (k, if k = key then value else f k)) := by
  simp only [PlainObject.replaceOwn, List.map_map]
  apply List.map_congr_left
  intro k _
  by_cases hk : k = key
  · simp [hk]
  · simp [hk]

theorem groupStep_groupsOf (groupOptionIndex : Nat) (seen : List Variant) (variant : Variant)
    (hkey : groupKey variant groupOptionIndex ∉ objectPrototypeKeys) :
    groupStep groupOptionIndex { own := groupsOf seen groupOptionIndex } variant =
      Except.ok { own := groupsOf (seen ++ [variant]) groupOptionIndex } := by
  have hproto : objectPrototypeKeys.contains (groupKey variant groupOptionIndex) = false := by
    simpa using hkey
  have htarget : groupsOf (seen ++ [variant]) groupOptionIndex =
      (firstSeen (seen.map (fun v => groupKey v groupOptionIndex) ++
          [groupKey variant groupOptionIndex])).map (fun key =>
        (key, seen.filter (fun v => groupKey v groupOptionIndex == key) ++
          if groupKey variant groupOptionIndex = key then [variant] else [])) := by
    simp only [groupsOf, firstSeenKeys, List.map_append, List.map_cons, List.map_nil,
      List.filter_append]
    apply List.map_congr_left
    intro key _
    by_cases hk : groupKey variant groupOptionIndex = key
    · simp [hk, List.filter]
    · have hb : (groupKey variant groupOptionIndex == key) = false := by simpa using hk
      simp [hk, hb, List.filter]
  rw [htarget, firstSeen_append_singleton]
  unfold groupStep
  by_cases hseen : groupKey variant groupOptionIndex ∈
      seen.map (fun v => groupKey v groupOptionIndex)
  · have hmem : groupKey variant groupOptionIndex ∈ firstSeenKeys seen groupOptionIndex :=
      (mem_firstSeen _ _).2 hseen
    simp only [PlainObject.get, PlainObject.set, groupsOf, lookup_map_pair, hmem, if_true,
      replaceOwn_map_pair, hseen]
    congr 2
    apply List.map_congr_left
    intro key _
    by_cases hk : key = groupKey variant groupOptionIndex
    · simp [hk]
    · have hk2 : ¬ groupKey variant groupOptionIndex = key := fun h => hk h.symm
      simp [hk, hk2]
  · have hmem : groupKey variant groupOptionIndex ∉ firstSeenKeys seen groupOptionIndex :=
      fun h => hseen ((mem_firstSeen _ _).1 h)
    have hnone : ∀ (f : String → List Variant),
        ((firstSeenKeys seen groupOptionIndex).map (fun k => (k, f k)) ++
          [(groupKey variant groupOptionIndex, ([] : List Variant))]).lookup
            (groupKey variant groupOptionIndex) = some [] := by
      intro f
      apply lookup_append_new
      intro entry hentry
      obtain ⟨k, hk, rfl⟩ := List.mem_map.1 hentry
      exact fun h => hmem (h ▸ hk)
    have hfilter : seen.filter
        (fun v => groupKey v groupOptionIndex == groupKey variant groupOptionIndex) = [] := by
      rw [List.filter_eq_nil_iff]
      intro v hv hv2
      exact hseen (List.mem_map.2 ⟨v, hv, by simpa using hv2⟩)
    simp only [PlainObject.get, PlainObject.set, groupsOf, lookup_map_pair, hmem, if_false,
      hproto, hnone, hseen, Bool.false_eq_true]
    congr 2
    simp only [PlainObject.replaceOwn, List.map_append, List.map_map, List.map_cons,
      List.map_nil, hfilter, if_true, List.nil_append]
    congr 1
    apply List.map_congr_left
    intro key hkey2
    have hne : ¬ key = groupKey variant groupOptionIndex := fun h => hmem (h ▸ hkey2)
    have hne2 : ¬ groupKey variant groupOptionIndex = key := fun h => hne h.symm
    simp [hne, hne2]
theorem groupLoop_groupsOf (groupOptionIndex : Nat) (rest : List Variant) :
    ∀ seen : List Variant,
      (∀ v ∈ rest, groupKey v groupOptionIndex ∉ objectPrototypeKeys) →
      groupLoop groupOptionIndex { own := groupsOf seen groupOptionIndex } rest =
        Except.ok { own := groupsOf (seen ++ rest) groupOptionIndex } := by
  induction rest with
  | nil => intro seen _; simp [groupLoop]
  | cons v rest ih =>
    intro seen hkeys
    unfold groupLoop
    rw [groupStep_groupsOf groupOptionIndex seen v (hkeys v (List.mem_cons_self _ _))]
    simp only
    rw [ih (seen ++ [v]) (fun w hw => hkeys w (List.mem_cons_of_mem _ hw))]
    simp

theorem groupStep_inherited (groupOptionIndex : Nat) (seen : List Variant) (variant : Variant)
    (hseen : ∀ v ∈ seen, groupKey v groupOptionIndex ∉ objectPrototypeKeys)
    (hkey : groupKey variant groupOptionIndex ∈ objectPrototypeKeys) :
    groupStep groupOptionIndex { own := groupsOf seen groupOptionIndex } variant =
      Except.error JsError.typeError := by
  have hproto : objectPrototypeKeys.contains (groupKey variant groupOptionIndex) = true := by
    simpa using hkey
  have hnot : groupKey variant groupOptionIndex ∉ firstSeenKeys seen groupOptionIndex := by
    intro h
    obtain ⟨v, hv, hvk⟩ := List.mem_map.1 ((mem_firstSeen _ _).1 h)
    exact hseen v hv (hvk ▸ hkey)
  unfold groupStep
  simp only [PlainObject.get, groupsOf, lookup_map_pair, hnot, if_false, hproto, if_true]

theorem groupLoop_inherited (groupOptionIndex : Nat) (rest : List Variant) :
    ∀ seen : List Variant,
      (∀ v ∈ seen, groupKey v groupOptionIndex ∉ objectPrototypeKeys) →
      (∃ v ∈ rest, groupKey v groupOptionIndex ∈ objectPrototypeKeys) →
      groupLoop groupOptionIndex { own := groupsOf seen groupOptionIndex } rest =
        Except.error JsError.typeError := by
  induction rest with
  | nil => intro seen _ h; simp at h
  | cons v rest ih =>
    intro seen hseen hex
    unfold groupLoop
    by_cases hv : groupKey v groupOptionIndex ∈ objectPrototypeKeys
    · rw [groupStep_inherited groupOptionIndex seen v hseen hv]
    · rw [groupStep_groupsOf groupOptionIndex seen v hv]
      simp only
      apply ih
      · intro w hw
        rcases List.mem_append.1 hw with h | h
        · exact hseen w h
        · have : w = v := by simpa using h
          exact this ▸ hv
      · obtain ⟨w, hw, hwk⟩ := hex
        rcases List.mem_cons.1 hw with h | h
        · exact absurd (h ▸ hwk) hv
        · exact ⟨w, h, hwk⟩

/-- The function `groupVariants` never returns a flat list or an object when a
group key names an inherited property: it throws exactly then. -/
theorem groupVariants_throws_iff (options : List ProductOption) (variants : List Variant)
    (groupBy : String) (groupOptionIndex : Nat) (hgroupBy : groupBy ≠ "")
    (hindex : options.findIdx? (fun option => option.name == groupBy) = some groupOptionIndex) :
    groupVariants options variants groupBy = Except.error JsError.typeError ↔
      ∃ v ∈ variants, groupKey v groupOptionIndex ∈ objectPrototypeKeys := by
  have htruthy : strTruthy groupBy = true := (strTruthy_eq_true_iff groupBy).2 hgroupBy
  have hempty : (PlainObject.empty : PlainObject (List Variant)) =
      { own := groupsOf [] groupOptionIndex } := rfl
  unfold groupVariants
  simp only [htruthy, Bool.not_true, Bool.false_eq_true, if_false, hindex]
  by_cases hex : ∃ v ∈ variants, groupKey v groupOptionIndex ∈ objectPrototypeKeys
  · rw [hempty, groupLoop_inherited groupOptionIndex variants [] (by simp) hex]
    simp [hex]
  · have hall : ∀ v ∈ variants, groupKey v groupOptionIndex ∉ objectPrototypeKeys :=
      fun v hv hk => hex ⟨v, hv, hk⟩
    rw [hempty, groupLoop_groupsOf groupOptionIndex variants [] hall]
    simp [hex]

theorem groupVariants_eq_groupsOf (options : List ProductOption) (variants : List Variant)
    (groupBy : String) (groupOptionIndex : Nat) (hgroupBy : groupBy ≠ "")
    (hindex : options.findIdx? (fun option => option.name == groupBy) = some groupOptionIndex)
    (hkeys : ∀ v ∈ variants, groupKey v groupOptionIndex ∉ objectPrototypeKeys) :
    groupVariants options variants groupBy =
      Except.ok (GroupResult.grouped { own := groupsOf variants groupOptionIndex }) := by
  have htruthy : strTruthy groupBy = true := (strTruthy_eq_true_iff groupBy).2 hgroupBy
  have hempty : (PlainObject.empty : PlainObject (List Variant)) =
      { own := groupsOf [] groupOptionIndex } := rfl
  unfold groupVariants
  simp only [htruthy, Bool.not_true, Bool.false_eq_true, if_false, hindex]
  rw [hempty, groupLoop_groupsOf groupOptionIndex variants [] hkeys]
  simp
theorem perm_flatMap_filter_keys (keys : List String) :
    ∀ (variants : List Variant) (groupOptionIndex : Nat), keys.Nodup →
      (∀ v ∈ variants, groupKey v groupOptionIndex ∈ keys) →
      (keys.flatMap (fun key =>
        variants.filter (fun v => groupKey v groupOptionIndex == key))).Perm variants := by
  induction keys with
  | nil =>
    intro variants _ _ hall
    cases variants with
    | nil => simp
    | cons v rest => exact absurd (hall v (List.mem_cons_self _ _)) (by simp)
  | cons k0 keys ih =>
    intro variants groupOptionIndex hnodup hall
    obtain ⟨hk0, hnodup2⟩ := List.nodup_cons.1 hnodup
    rw [List.flatMap_cons]
    have hrest : keys.flatMap (fun key =>
          variants.filter (fun v => groupKey v groupOptionIndex == key)) =
        keys.flatMap (fun key =>
          (variants.filter (fun v => !(groupKey v groupOptionIndex == k0))).filter
            (fun v => groupKey v groupOptionIndex == key)) := by
      apply List.flatMap_congr
      intro key hkey
      rw [List.filter_filter]
      apply List.filter_congr
      intro v _
      by_cases hv : groupKey v groupOptionIndex = key
      · have hne : ¬ groupKey v groupOptionIndex = k0 := fun h => hk0 (h ▸ hv ▸ hkey)
        simp [hv, hne, (hv ▸ hne : ¬ key = k0)]
      · simp [hv]
    rw [hrest]
    have hih := ih (variants.filter (fun v => !(groupKey v groupOptionIndex == k0)))
      groupOptionIndex hnodup2 (by
        intro v hv
        obtain ⟨hv1, hv2⟩ := List.mem_filter.1 hv
        rcases List.mem_cons.1 (hall v hv1) with h | h
        · simp [h] at hv2
        · exact h)
    exact (List.Perm.append_left _ hih).trans (List.filter_append_perm _ variants)

theorem objectEntries_perm {α : Type} (obj : PlainObject α) :
    (objectEntries obj).Perm obj.own := by
  unfold objectEntries
  have hnot : (fun entry : String × α => (arrayIndex? entry.1).isNone) =
      (fun entry => !(arrayIndex? entry.1).isSome) := by
    funext entry
    cases arrayIndex? entry.1 <;> rfl
  rw [hnot]
  exact (List.Perm.append_right _ (List.perm_insertionSort _ _)).trans
    (List.filter_append_perm _ obj.own)

theorem objectEntries_eq_own {α : Type} (obj : PlainObject α)
    (h : ∀ entry ∈ obj.own, arrayIndex? entry.1 = none) : objectEntries obj = obj.own := by
  unfold objectEntries
  have h1 : obj.own.filter (fun entry => (arrayIndex? entry.1).isSome) = [] := by
    rw [List.filter_eq_nil_iff]
    intro entry hentry
    simp [h entry hentry]
  have h2 : obj.own.filter (fun entry => (arrayIndex? entry.1).isNone) = obj.own := by
    rw [List.filter_eq_self]
    intro entry hentry
    simp [h entry hentry]
  rw [h1, h2]
  simp

theorem mem_groupsOf (variants : List Variant) (groupOptionIndex : Nat) (key : String)
    (members : List Variant) :
    (key, members) ∈ groupsOf variants groupOptionIndex ↔
      (∃ v ∈ variants, groupKey v groupOptionIndex = key) ∧
        members = variants.filter (fun v => groupKey v groupOptionIndex == key) := by
  simp only [groupsOf, firstSeenKeys, List.mem_map, Prod.mk.injEq, mem_firstSeen]
  constructor
  · rintro ⟨k, ⟨v, hv, hvk⟩, rfl, rfl⟩
    exact ⟨⟨v, hv, hvk⟩, rfl⟩
  · rintro ⟨⟨v, hv, hvk⟩, rfl⟩
    exact ⟨key, ⟨v, hv, hvk⟩, rfl, rfl⟩

theorem groupsOf_keys (variants : List Variant) (groupOptionIndex : Nat) :
    (groupsOf variants groupOptionIndex).map Prod.fst =
      firstSeenKeys variants groupOptionIndex := by
  simp [groupsOf, List.map_map, Function.comp_def]

theorem groupsOf_flatMap_perm (variants : List Variant) (groupOptionIndex : Nat) :
    ((groupsOf variants groupOptionIndex).flatMap Prod.snd).Perm variants := by
  have : (groupsOf variants groupOptionIndex).flatMap Prod.snd =
      (firstSeenKeys variants groupOptionIndex).flatMap (fun key =>
        variants.filter (fun v => groupKey v groupOptionIndex == key)) := by
    simp [groupsOf, List.flatMap_map]
  rw [this]
  apply perm_flatMap_filter_keys _ _ _ (nodup_firstSeen _)
  intro v hv
  exact (mem_firstSeen _ _).2 (List.mem_map.2 ⟨v, hv, rfl⟩)
/-- C8 (as amended): when `groupBy` is not empty, `i` is the index `findIndex`
returns for it and no variant's group key names an inherited property,
`groupVariants` returns an object in which the group stored under a key is
exactly the variants with that group key in original order; no group is empty,
no key occurs twice, every variant lies in the group of its own key and in no
other, and the groups concatenated in enumeration order are a rearrangement of
the variant list. -/
theorem groupVariants_partition (options : List ProductOption) (variants : List Variant)
    (groupBy : String) (i : Nat) (hgroupBy : groupBy ≠ "")
    (hindex : options.findIdx? (fun option => option.name == groupBy) = some i)
    (hkeys : ∀ v ∈ variants, groupKey v i ∉ objectPrototypeKeys) :
    ∃ obj, groupVariants options variants groupBy = Except.ok (GroupResult.grouped obj) ∧
      (∀ (key : String) (members : List Variant),
        obj.get key = PropertyRead.own members →
          members = variants.filter (fun v => groupKey v i == key) ∧ members ≠ []) ∧
      (∀ (key : String) (members : List Variant),
        (key, members) ∈ objectEntries obj ↔ obj.get key = PropertyRead.own members) ∧
      ((objectEntries obj).map Prod.fst).Nodup ∧
      (∀ v ∈ variants, ∀ (key : String) (members : List Variant),
        (key, members) ∈ objectEntries obj → (v ∈ members ↔ key = groupKey v i)) ∧
      (∀ v ∈ variants, ∃ members, (groupKey v i, members) ∈ objectEntries obj) ∧
      ((objectEntries obj).flatMap Prod.snd).Perm variants := by
  refine ⟨{ own := groupsOf variants i },
    groupVariants_eq_groupsOf options variants groupBy i hgroupBy hindex hkeys, ?_⟩
  have hperm := objectEntries_perm ({ own := groupsOf variants i } : PlainObject (List Variant))
  have hget : ∀ (key : String) (members : List Variant),
      PlainObject.get ({ own := groupsOf variants i } : PlainObject (List Variant)) key =
          PropertyRead.own members ↔
        (key, members) ∈ groupsOf variants i := by
    intro key members
    rw [mem_groupsOf]
    simp only [PlainObject.get, groupsOf, lookup_map_pair, firstSeenKeys, mem_firstSeen,
      List.mem_map]
    by_cases hex : ∃ v ∈ variants, groupKey v i = key
    · simp only [hex, if_true, PropertyRead.own.injEq, true_and]
      exact eq_comm
    · simp only [hex, if_false, false_and, iff_false]
      split <;> simp
  have hentry : ∀ (key : String) (members : List Variant),
      (key, members) ∈ objectEntries ({ own := groupsOf variants i } : PlainObject _) ↔
        (∃ v ∈ variants, groupKey v i = key) ∧
          members = variants.filter (fun v => groupKey v i == key) := by
    intro key members
    rw [hperm.mem_iff, mem_groupsOf]
  refine ⟨?_, ?_, ?_, ?_, ?_, ?_⟩
  · intro key members hread
    obtain ⟨⟨v, hv, hvk⟩, hmem⟩ := (mem_groupsOf _ _ _ _).1 ((hget key members).1 hread)
    refine ⟨hmem, ?_⟩
    rw [hmem]
    exact List.ne_nil_of_mem (List.mem_filter.2 ⟨hv, by simpa using hvk⟩)
  · intro key members
    rw [hget, hperm.mem_iff]
  · have := (hperm.map Prod.fst).nodup_iff.2
      (by rw [groupsOf_keys]; exact nodup_firstSeen _)
    exact this
  · intro v hv key members hmem
    obtain ⟨_, hm⟩ := (hentry key members).1 hmem
    rw [hm, List.mem_filter]
    constructor
    · rintro ⟨_, h⟩
      exact (by simpa using h : groupKey v i = key).symm
    · intro h
      exact ⟨hv, by simp [h]⟩
  · intro v hv
    exact ⟨_, (hentry _ _).2 ⟨⟨v, hv, rfl⟩, rfl⟩⟩
  · exact (hperm.flatMap_right Prod.snd).trans (groupsOf_flatMap_perm variants i)

theorem groupVariants_partition_witness :
    ("Size" ≠ "" ∧
        sizeColorOptions.findIdx? (fun option => option.name == "Size") = some 0 ∧
        ∀ v ∈ generateVariants sizeColorOptions, groupKey v 0 ∉ objectPrototypeKeys) ∧
      ∃ obj, groupVariants sizeColorOptions (generateVariants sizeColorOptions) "Size" =
          Except.ok (GroupResult.grouped obj) ∧
        (∀ (key : String) (members : List Variant),
          obj.get key = PropertyRead.own members →
            members = (generateVariants sizeColorOptions).filter
                (fun v => groupKey v 0 == key) ∧ members ≠ []) ∧
        (∀ (key : String) (members : List Variant),
          (key, members) ∈ objectEntries obj ↔ obj.get key = PropertyRead.own members) ∧
        ((objectEntries obj).map Prod.fst).Nodup ∧
        (∀ v ∈ generateVariants sizeColorOptions, ∀ (key : String) (members : List Variant),
          (key, members) ∈ objectEntries obj → (v ∈ members ↔ key = groupKey v 0)) ∧
        (∀ v ∈ generateVariants sizeColorOptions,
          ∃ members, (groupKey v 0, members) ∈ objectEntries obj) ∧
        ((objectEntries obj).flatMap Prod.snd).Perm (generateVariants sizeColorOptions) :=
  ⟨⟨by decide, by decide, by decide⟩,
    groupVariants_partition sizeColorOptions (generateVariants sizeColorOptions) "Size" 0
      (by decide) (by decide) (by decide)⟩

/-- C8 (the claim as stated fails): with the empty `groupBy`, the name of the
only option, the result is the flat list and stores no group; with two options
of the same name the grouping is by the first of them, so nothing is stored
under the second option's value; a variant whose combination has no position
`i` is stored under the key `undefined`; and with a value named `constructor`
no result is returned at all. -/
theorem groupVariants_partition_counterexample :
    (unnamedOptions[0]?.map (fun option => option.name) = some "" ∧
        groupVariants unnamedOptions oneVariant "" = Except.ok (GroupResult.flat oneVariant)) ∧
      (sameNameOptions[1]?.map (fun option => option.name) = some "A" ∧
        (generateVariants sameNameOptions).map (fun v => v.combination[1]?) = [some "y"] ∧
        (groupEntries sameNameOptions (generateVariants sameNameOptions) "A").map
          (fun entries => entries.map (fun entry => (entry.1, entry.2.map (fun v => v.id)))) =
            some [("x", [1])]) ∧
      (shortVariant.map (fun v => v.combination[0]?) = [none] ∧
        (groupEntries sizeColorOptions shortVariant "Size").map
          (fun entries => entries.map (fun entry => (entry.1, entry.2.map (fun v => v.id)))) =
            some [("undefined", [1])]) ∧
      (constructorOptions[0]?.map (fun option => option.name) = some "Size" ∧
        groupVariants constructorOptions (generateVariants constructorOptions) "Size" =
          Except.error JsError.typeError) := by
  refine ⟨⟨by decide, rfl⟩, ⟨by decide, by decide, by decide⟩, ⟨by decide, by decide⟩,
    ⟨by decide, rfl⟩⟩

/-- When, in addition, no group key is an array index, the groups are
enumerated in the order in which their keys first occur among the variants. -/
theorem groupVariants_order_first_seen (options : List ProductOption)
    (variants : List Variant) (groupBy : String) (i : Nat) (hgroupBy : groupBy ≠ "")
    (hindex : options.findIdx? (fun option => option.name == groupBy) = some i)
    (hkeys : ∀ v ∈ variants, groupKey v i ∉ objectPrototypeKeys)
    (hnoIndex : ∀ v ∈ variants, arrayIndex? (groupKey v i) = none) :
    (groupEntries options variants groupBy).map (fun entries => entries.map Prod.fst) =
      some (firstSeenKeys variants i) := by
  unfold groupEntries
  rw [groupVariants_eq_groupsOf options variants groupBy i hgroupBy hindex hkeys]
  simp only [Option.map_some', Option.some.injEq]
  rw [objectEntries_eq_own, groupsOf_keys]
  intro entry hentry
  obtain ⟨⟨v, hv, hvk⟩, _⟩ := (mem_groupsOf variants i entry.1 entry.2).1 hentry
  rw [← hvk]
  exact hnoIndex v hv

theorem groupVariants_order_first_seen_witness :
    (groupEntries sizeColorOptions (generateVariants sizeColorOptions) "Size").map
        (fun entries => entries.map Prod.fst) = some ["S", "M"] :=
  groupVariants_order_first_seen sizeColorOptions (generateVariants sizeColorOptions) "Size" 0
    (by decide) (by decide) (by decide) (by decide)

/-- C9 (the code at the failing input): for the option `Size` with the values
`10` and `2`, in that order, the key `10` occurs first among the variants, yet
`Object.entries` of the result of `groupVariants` enumerates the group `2`
before the group `10`. -/
theorem groupVariants_integer_keys_order :
    (generateVariants tenTwoOptions).map (fun v => v.combination) = [["10"], ["2"]] ∧
      firstSeenKeys (generateVariants tenTwoOptions) 0 = ["10", "2"] ∧
      (groupEntries tenTwoOptions (generateVariants tenTwoOptions) "Size").map
        (fun entries => entries.map (fun entry => (entry.1, entry.2.map (fun v => v.id)))) =
          some [("2", [2]), ("10", [1])] := by
  refine ⟨by decide, by decide, by decide⟩

theorem groupVariants_of_empty_groupBy (options : List ProductOption)
    (variants : List Variant) :
    groupVariants options variants "" = Except.ok (GroupResult.flat variants) := by
  have : strTruthy "" = false := rfl
  simp [groupVariants, this]

theorem groupVariants_of_no_match (options : List ProductOption) (variants : List Variant)
    (groupBy : String) (hall : ∀ option ∈ options, option.name ≠ groupBy) :
    groupVariants options variants groupBy = Except.ok (GroupResult.flat variants) := by
  have hnone : options.findIdx? (fun option => option.name == groupBy) = none := by
    rw [List.findIdx?_eq_none_iff]
    intro option hoption
    simpa using hall option hoption
  unfold groupVariants
  split
  · rfl
  · simp only [hnone]

/-- C10: when `groupBy` is the empty string or the name of no option,
`groupVariants` returns the variant list itself. -/
theorem groupVariants_flat (options : List ProductOption) (variants : List Variant)
    (groupBy : String) (h : groupBy = "" ∨ ∀ option ∈ options, option.name ≠ groupBy) :
    groupVariants options variants groupBy = Except.ok (GroupResult.flat variants) := by
  rcases h with hempty | hall
  · rw [hempty]
    exact groupVariants_of_empty_groupBy options variants
  · exact groupVariants_of_no_match options variants groupBy hall

theorem groupVariants_flat_witness :
    ("Material" = "" ∨ ∀ option ∈ sizeColorOptions, option.name ≠ "Material") ∧
      groupVariants sizeColorOptions (generateVariants sizeColorOptions) "Material" =
        Except.ok (GroupResult.flat (generateVariants sizeColorOptions)) :=
  ⟨by decide,
    groupVariants_flat sizeColorOptions (generateVariants sizeColorOptions) "Material"
      (by decide)⟩
/-! ## Properties of `filterVariants` -/

theorem includesChars_iff (haystack needle : List Char) :
    includesChars haystack needle = true ↔ needle <:+: haystack := by
  induction haystack with
  | nil => simp [includesChars]
  | cons c rest ih =>
    simp only [includesChars, Bool.or_eq_true, List.isPrefixOf_iff_prefix, ih]
    exact List.infix_cons_iff.symm

theorem intercalate_go_data (separator : String) (parts : List String) :
    ∀ acc : String,
      (String.intercalate.go acc separator parts).data =
        acc.data ++ parts.flatMap (fun part => separator.data ++ part.data) := by
  induction parts with
  | nil => intro acc; simp [String.intercalate.go]
  | cons part rest ih =>
    intro acc
    simp [String.intercalate.go, ih, String.data_append, List.append_assoc]

theorem joinChars_cons (separator : List Char) (part : String) (rest : List String) :
    joinChars separator (part :: rest) =
      part.data ++ rest.flatMap (fun p => separator ++ p.data) := by
  induction rest generalizing part with
  | nil => simp [joinChars]
  | cons next rest ih =>
    simp only [joinChars, ih next, List.flatMap_cons, List.append_assoc]

theorem jsJoin_eq_intercalate (parts : List String) (separator : String) :
    jsJoin parts separator = separator.intercalate parts := by
  apply String.ext
  cases parts with
  | nil => simp [jsJoin, joinChars, String.intercalate]
  | cons part rest =>
    simp only [jsJoin, joinChars_cons, String.intercalate, intercalate_go_data]

theorem filterVariants_of_blank (toLowerCase : String → String) (searchTerm : String)
    (variants : List Variant) (h : jsTrim searchTerm = "") :
    filterVariants toLowerCase searchTerm variants = variants := by
  have : strTruthy (jsTrim searchTerm) = false := by rw [h]; rfl
  simp [filterVariants, this]

theorem filterVariants_of_term (toLowerCase : String → String) (searchTerm : String)
    (variants : List Variant) (h : jsTrim searchTerm ≠ "") :
    filterVariants toLowerCase searchTerm variants =
      variants.filter (fun v => decide (matchesTerm toLowerCase searchTerm v)) := by
  have : strTruthy (jsTrim searchTerm) = true := (strTruthy_eq_true_iff _).2 h
  simp only [filterVariants, this, Bool.not_true, Bool.false_eq_true, if_false]
  apply List.filter_congr
  intro v _
  simp only [jsIncludes, jsJoin_eq_intercalate, matchesTerm, isSubstringOf]
  rw [Bool.eq_iff_iff, includesChars_iff]
  simp

/-- C11: `filterVariants` returns its input unchanged when the trimmed search
term is empty, and otherwise exactly the subsequence, in original order, of the
variants whose lower-cased, space-joined combination contains the lower-cased
term as a substring. -/
theorem filterVariants_spec (toLowerCase : String → String) (searchTerm : String)
    (variants : List Variant) :
    (jsTrim searchTerm = "" → filterVariants toLowerCase searchTerm variants = variants) ∧
      (jsTrim searchTerm ≠ "" →
        filterVariants toLowerCase searchTerm variants =
          variants.filter (fun v => decide (matchesTerm toLowerCase searchTerm v))) :=
  ⟨filterVariants_of_blank toLowerCase searchTerm variants,
    filterVariants_of_term toLowerCase searchTerm variants⟩

theorem filterVariants_spec_witness :
    jsTrim "blue" ≠ "" ∧
      (filterVariants asciiToLowerCase "blue" (generateVariants sizeColorOptions)).map
        (fun v => (v.id, v.combination)) = [(2, ["S", "Blue"]), (4, ["M", "Blue"])] ∧
      filterVariants asciiToLowerCase "blue" (generateVariants sizeColorOptions) =
        (generateVariants sizeColorOptions).filter
          (fun v => decide (matchesTerm asciiToLowerCase "blue" v)) :=
  ⟨by decide, by decide,
    (filterVariants_spec asciiToLowerCase "blue" (generateVariants sizeColorOptions)).2
      (by decide)⟩

/-- C13: filtering is idempotent: filtering the result of `filterVariants`
again with the same term returns it unchanged. -/
theorem filterVariants_idempotent (toLowerCase : String → String) (searchTerm : String)
    (variants : List Variant) :
    filterVariants toLowerCase searchTerm (filterVariants toLowerCase searchTerm variants) =
      filterVariants toLowerCase searchTerm variants := by
  unfold filterVariants
  split
  · rfl
  · simp [List.filter_filter]
/-! ## Properties of the rendered groups and of the aggregates -/

theorem groupVariants_grouped_inv (options : List ProductOption) (variants : List Variant)
    (groupBy : String) (obj : PlainObject (List Variant))
    (h : groupVariants options variants groupBy = Except.ok (GroupResult.grouped obj)) :
    ∃ i, groupBy ≠ "" ∧
      options.findIdx? (fun option => option.name == groupBy) = some i ∧
      (∀ v ∈ variants, groupKey v i ∉ objectPrototypeKeys) ∧
      obj = { own := groupsOf variants i } := by
  by_cases hgroupBy : groupBy = ""
  · rw [hgroupBy, groupVariants_of_empty_groupBy options variants] at h
    simp at h
  · cases hfind : options.findIdx? (fun option => option.name == groupBy) with
    | none =>
      have hall : ∀ option ∈ options, option.name ≠ groupBy := by
        intro option hoption
        have := (List.findIdx?_eq_none_iff.1 hfind) option hoption
        simpa using this
      rw [groupVariants_of_no_match options variants groupBy hall] at h
      simp at h
    | some i =>
      refine ⟨i, hgroupBy, rfl, ?_⟩
      by_cases hex : ∃ v ∈ variants, groupKey v i ∈ objectPrototypeKeys
      · rw [(groupVariants_throws_iff options variants groupBy i hgroupBy hfind).2 hex] at h
        simp at h
      · have hall : ∀ v ∈ variants, groupKey v i ∉ objectPrototypeKeys :=
          fun v hv hk => hex ⟨v, hv, hk⟩
        rw [groupVariants_eq_groupsOf options variants groupBy i hgroupBy hfind hall] at h
        simp only [Except.ok.injEq, GroupResult.grouped.injEq] at h
        exact ⟨hall, h.symm⟩

/-- The test `filterVariants` applies to each variant, for both of its branches. -/
theorem filterVariants_eq_filter (toLowerCase : String → String) (searchTerm : String)
    (variants : List Variant) :
    filterVariants toLowerCase searchTerm variants =
      variants.filter (fun v =>
        !strTruthy (jsTrim searchTerm) ||
          jsIncludes (toLowerCase (jsJoin v.combination " ")) (toLowerCase searchTerm)) := by
  unfold filterVariants
  cases strTruthy (jsTrim searchTerm) <;> simp

theorem flatMap_filterMap_renderGroup (toLowerCase : String → String) (state : TableState)
    (entries : List (String × List Variant)) :
    (entries.filterMap (renderGroup toLowerCase state)).flatMap (fun g => g.variants) =
      entries.flatMap (fun entry => filterVariants toLowerCase state.searchTerm entry.2) := by
  induction entries with
  | nil => simp
  | cons entry rest ih =>
    by_cases hempty : (filterVariants toLowerCase state.searchTerm entry.2).length = 0
    · have hnil : filterVariants toLowerCase state.searchTerm entry.2 = [] :=
        List.length_eq_zero.1 hempty
      simp [List.filterMap_cons, renderGroup, hnil, ih]
    · simp [List.filterMap_cons, renderGroup, hempty, ih]

theorem flatMap_filter_eq {α β : Type} (p : β → Bool) (f : α → List β) (l : List α) :
    l.flatMap (fun a => (f a).filter p) = (l.flatMap f).filter p := by
  induction l with
  | nil => simp
  | cons a rest ih => simp [List.flatMap_cons, List.filter_append, ih]

theorem map_renderedGroups (toLowerCase : String → String) (state : TableState)
    (entries : List (String × List Variant)) :
    (entries.filterMap (renderGroup toLowerCase state)).map
        (fun g => (g.groupName, g.variants)) =
      (entries.map (fun entry =>
        (entry.1, filterVariants toLowerCase state.searchTerm entry.2))).filter
          (fun group => !group.2.isEmpty) := by
  induction entries with
  | nil => simp
  | cons entry rest ih =>
    by_cases hempty : (filterVariants toLowerCase state.searchTerm entry.2).length = 0
    · have hnil : filterVariants toLowerCase state.searchTerm entry.2 = [] :=
        List.length_eq_zero.1 hempty
      simp [List.filterMap_cons, renderGroup, hnil, ih]
    · have hne : filterVariants toLowerCase state.searchTerm entry.2 ≠ [] :=
        fun h => hempty (by rw [h]; rfl)
      have hb : (filterVariants toLowerCase state.searchTerm entry.2).isEmpty = false := by
        cases hf : filterVariants toLowerCase state.searchTerm entry.2 with
        | nil => exact absurd hf hne
        | cons a l => rfl
      simp [List.filterMap_cons, renderGroup, hempty, hb, ih]
theorem objectEntries_groupsOf_mem (variants : List Variant) (i : Nat) (key : String)
    (members : List Variant) :
    (key, members) ∈ objectEntries ({ own := groupsOf variants i } : PlainObject _) ↔
      (∃ v ∈ variants, groupKey v i = key) ∧
        members = variants.filter (fun v => groupKey v i == key) := by
  rw [(objectEntries_perm _).mem_iff, mem_groupsOf]

theorem objectEntries_flatMap_perm (variants : List Variant) (i : Nat) :
    ((objectEntries ({ own := groupsOf variants i } : PlainObject _)).flatMap Prod.snd).Perm
      variants :=
  ((objectEntries_perm _).flatMap_right Prod.snd).trans (groupsOf_flatMap_perm variants i)

/-- C12: with grouping active (`groupVariants` returned an object), the
rendered groups are the groups of `groupVariants`, in enumeration order, whose
`filterVariants` result is not empty, each carrying `filterVariants` of that
group alone; a group without a matching variant is not rendered; and the
variants of all rendered groups together are a rearrangement of
`filterVariants(variants)`, which is also what the member rows show when every
rendered group is expanded. -/
theorem renderedGroups_spec (toLowerCase : String → String) (options : List ProductOption)
    (variants : List Variant) (state : TableState) (obj : PlainObject (List Variant))
    (hgrouped : groupVariants options variants state.groupBy =
      Except.ok (GroupResult.grouped obj)) :
    (∃ view, VariantsTable toLowerCase options variants state = Except.ok view ∧
        view.groups = renderedGroups toLowerCase state obj ∧ view.rows = []) ∧
      (renderedGroups toLowerCase state obj).map (fun g => (g.groupName, g.variants)) =
        ((objectEntries obj).map (fun entry =>
          (entry.1, filterVariants toLowerCase state.searchTerm entry.2))).filter
            (fun group => !group.2.isEmpty) ∧
      (∀ entry ∈ objectEntries obj,
        filterVariants toLowerCase state.searchTerm entry.2 = [] →
          ∀ g ∈ renderedGroups toLowerCase state obj, g.groupName ≠ entry.1) ∧
      ((renderedGroups toLowerCase state obj).flatMap (fun g => g.variants)).Perm
        (filterVariants toLowerCase state.searchTerm variants) ∧
      ((∀ g ∈ renderedGroups toLowerCase state obj, g.isExpanded = true) →
        ((renderedGroups toLowerCase state obj).flatMap groupMemberRows).Perm
          (filterVariants toLowerCase state.searchTerm variants)) := by
  obtain ⟨i, _, _, _, hobj⟩ :=
    groupVariants_grouped_inv options variants state.groupBy obj hgrouped
  have hmap := map_renderedGroups toLowerCase state (objectEntries obj)
  have hperm : ((renderedGroups toLowerCase state obj).flatMap (fun g => g.variants)).Perm
      (filterVariants toLowerCase state.searchTerm variants) := by
    unfold renderedGroups
    rw [flatMap_filterMap_renderGroup]
    have hfun : (fun entry : String × List Variant =>
          filterVariants toLowerCase state.searchTerm entry.2) =
        (fun entry => (Prod.snd entry).filter (fun v =>
          !strTruthy (jsTrim state.searchTerm) ||
            jsIncludes (toLowerCase (jsJoin v.combination " "))
              (toLowerCase state.searchTerm))) := by
      funext entry
      exact filterVariants_eq_filter toLowerCase state.searchTerm entry.2
    rw [hfun, flatMap_filter_eq, filterVariants_eq_filter, hobj]
    exact (objectEntries_flatMap_perm variants i).filter _
  refine ⟨?_, hmap, ?_, hperm, ?_⟩
  · simp only [VariantsTable, hgrouped]
    exact ⟨_, rfl, rfl, rfl⟩
  · intro entry hentry hnil g hg hname
    have hgmem : (g.groupName, g.variants) ∈
        (renderedGroups toLowerCase state obj).map (fun g => (g.groupName, g.variants)) :=
      List.mem_map.2 ⟨g, hg, rfl⟩
    unfold renderedGroups at hgmem
    rw [hmap] at hgmem
    obtain ⟨hin, hnonempty⟩ := List.mem_filter.1 hgmem
    obtain ⟨entry2, hentry2, heq⟩ := List.mem_map.1 hin
    simp only [Prod.mk.injEq] at heq
    have h1 := (objectEntries_groupsOf_mem variants i entry.1 entry.2).1 (hobj ▸ hentry)
    have h2 := (objectEntries_groupsOf_mem variants i entry2.1 entry2.2).1 (hobj ▸ hentry2)
    have hsame : entry2.2 = entry.2 := by
      rw [h1.2, h2.2, heq.1, hname]
    rw [← heq.2, hsame, hnil] at hnonempty
    simp at hnonempty
  · intro hall
    have hrows : (renderedGroups toLowerCase state obj).flatMap groupMemberRows =
        (renderedGroups toLowerCase state obj).flatMap (fun g => g.variants) := by
      apply List.flatMap_congr
      intro g hg
      simp [groupMemberRows, hall g hg]
    rw [hrows]
    exact hperm
theorem renderedGroups_spec_witness :
    groupVariants sizeColorOptions stockedVariants redSearchState.groupBy =
        Except.ok (GroupResult.grouped { own := groupsOf stockedVariants 0 }) ∧
      (renderedGroups asciiToLowerCase redSearchState
          { own := groupsOf stockedVariants 0 }).map
        (fun g => (g.groupName, g.variants.map (fun v => v.id))) = [("S", [1]), ("M", [3])] ∧
      ((renderedGroups asciiToLowerCase redSearchState
          { own := groupsOf stockedVariants 0 }).flatMap (fun g => g.variants)).Perm
        (filterVariants asciiToLowerCase redSearchState.searchTerm stockedVariants) :=
  ⟨rfl, rfl,
    (renderedGroups_spec asciiToLowerCase sizeColorOptions stockedVariants redSearchState
      { own := groupsOf stockedVariants 0 } rfl).2.2.2.1⟩

theorem bitLengthAux_zero (fuel : Nat) : bitLengthAux fuel 0 = 0 := by
  cases fuel <;> simp [bitLengthAux]

theorem bitLengthAux_spec (fuel : Nat) :
    ∀ n : Nat, n ≤ fuel → 0 < n →
      0 < bitLengthAux fuel n ∧ 2 ^ (bitLengthAux fuel n - 1) ≤ n ∧
        n < 2 ^ bitLengthAux fuel n := by
  induction fuel with
  | zero => intro n h1 h2; omega
  | succ fuel ih =>
    intro n hle hpos
    have hne : n ≠ 0 := by omega
    simp only [bitLengthAux, hne, if_false]
    rcases Nat.eq_zero_or_pos (n / 2) with hhalf | hhalf
    · have hn : n = 1 := by omega
      subst hn
      simp [bitLengthAux_zero]
    · obtain ⟨hL, hlow, hhigh⟩ := ih (n / 2) (by omega) hhalf
      refine ⟨by omega, ?_, ?_⟩
      · simp only [Nat.add_sub_cancel]
        have hpow : 2 ^ bitLengthAux fuel (n / 2) = 2 * 2 ^ (bitLengthAux fuel (n / 2) - 1) := by
          rw [← Nat.pow_succ']
          congr 1
          omega
        omega
      · rw [Nat.pow_succ]
        omega

theorem bitLength_spec (n : Nat) (hpos : 0 < n) :
    0 < bitLength n ∧ 2 ^ (bitLength n - 1) ≤ n ∧ n < 2 ^ bitLength n :=
  bitLengthAux_spec n n (Nat.le_refl n) hpos

theorem binaryExponent_nat (n : Nat) (hpos : 0 < n) :
    binaryExponent n 1 = Int.ofNat (bitLength n - 1) := by
  obtain ⟨hL, hlow, _⟩ := bitLength_spec n hpos
  have hone : bitLength 1 = 1 := by decide
  have hguess : (bitLength n : Int) - (bitLength 1 : Int) = Int.ofNat (bitLength n - 1) := by
    rw [hone]
    simp only [Int.ofNat_eq_coe]
    omega
  unfold binaryExponent
  simp only [hguess, Nat.one_mul, hlow, decide_True, if_true]

theorem roundHalfEven_one (n : Nat) : roundHalfEven n 1 = n := by
  simp [roundHalfEven, Nat.mod_one]

theorem roundMagnitude_nat (n : Nat) (hle : n ≤ 2 ^ 53) :
    roundMagnitude false n 1 = JsNumber.fin (n : ℚ) := by
  rcases Nat.eq_zero_or_pos n with hzero | hpos
  · subst hzero
    simp [roundMagnitude]
  · obtain ⟨hL, hlow, hhigh⟩ := bitLength_spec n hpos
    have hLle : bitLength n - 1 ≤ 53 := by
      by_contra hgt
      have h54 : 2 ^ 54 ≤ 2 ^ (bitLength n - 1) := Nat.pow_le_pow_right (by decide) (by omega)
      have : (2 : Nat) ^ 53 < 2 ^ 54 := by decide
      omega
    unfold roundMagnitude
    rw [if_neg (by omega), binaryExponent_nat n hpos]
    simp only [Int.ofNat_eq_coe]
    rw [if_neg (by omega), if_neg (by omega)]
    by_cases hbig : 52 ≤ bitLength n - 1
    · have hk : ((bitLength n - 1 : Nat) : Int) - 52 = Int.ofNat (bitLength n - 1 - 52) := by
        simp only [Int.ofNat_eq_coe]
        omega
      simp only [hk, Nat.one_mul]
      rcases Nat.lt_or_ge (bitLength n - 1) 53 with h52 | h53
      · have hk0 : bitLength n - 1 - 52 = 0 := by omega
        rw [hk0]
        simp only [Nat.pow_zero, roundHalfEven_one, Nat.mul_one, Bool.false_eq_true, if_false]
        have hlt := Nat.pow_lt_pow_right (by decide : 1 < 2) (by decide : 53 < 1024)
        split
        · rename_i hover
          exact absurd (Nat.le_trans hover hle) (Nat.not_le.2 hlt)
        · rfl
      · have hk1 : bitLength n - 1 - 52 = 1 := by omega
        have hL53 : bitLength n - 1 = 53 := by omega
        have hn : n = 2 ^ 53 := by
          rw [hL53] at hlow
          omega
        rw [hk1, hn]
        have hround : roundHalfEven (2 ^ 53) (2 ^ 1) = 2 ^ 52 := by decide
        rw [hround]
        have hmul : (2 : Nat) ^ 52 * 2 ^ 1 = 2 ^ 53 := by decide
        have hlt := Nat.pow_lt_pow_right (by decide : 1 < 2) (by decide : 53 < 1024)
        rw [hmul, if_neg (Nat.not_le.2 hlt)]
        simp only [Bool.false_eq_true, if_false]
    · have hk : ((bitLength n - 1 : Nat) : Int) - 52 =
          Int.negSucc (52 - (bitLength n - 1) - 1) := by
        rw [Int.negSucc_eq]
        have : ((52 - (bitLength n - 1) - 1 : Nat) : Int) = 52 - ((bitLength n - 1 : Nat) : Int) - 1 := by
          omega
        rw [this]
        ring
      simp only [hk, roundHalfEven_one, Bool.false_eq_true, if_false]
      congr 1
      have hcast : ((n * 2 ^ (52 - (bitLength n - 1) - 1 + 1) : Nat) : Int) =
          (n : Int) * ((2 ^ (52 - (bitLength n - 1) - 1 + 1) : Nat) : Int) := by
        push_cast
        ring
      rw [hcast, Rat.mkRat_eq_div]
      push_cast
      field_simp

theorem add_natCast (a b : Nat) (h : a + b ≤ 2 ^ 53) :
    (JsNumber.fin (a : ℚ)).add (JsNumber.fin (b : ℚ)) = JsNumber.fin ((a + b : Nat) : ℚ) := by
  have hsum : (a : ℚ) + (b : ℚ) = ((a + b : Nat) : ℚ) := by push_cast; rfl
  show roundToDouble ((a : ℚ) + (b : ℚ)) = _
  rw [hsum]
  unfold roundToDouble
  have hneg : decide ((((a + b : Nat) : ℚ)).num < 0) = false := by
    simp only [Rat.num_natCast, decide_eq_false_iff_not, not_lt]
    exact Int.natCast_nonneg _
  rw [hneg]
  simp only [Rat.num_natCast, Rat.den_natCast, Int.natAbs_ofNat]
  exact roundMagnitude_nat (a + b) h

/-- On inventories that are natural numbers whose total does not exceed `2^53`
the reduction of `sumInventory` is exact: every partial sum is a double. -/
theorem foldl_add_natCast (variants : List Variant) :
    ∀ (counts : List Nat) (start : Nat),
      variants.map (fun v => v.inventory) = counts.map (fun n : Nat => JsNumber.fin (n : ℚ)) →
      start + counts.sum ≤ 2 ^ 53 →
      variants.foldl (fun sum variant => sum.add variant.inventory) (JsNumber.fin (start : ℚ)) =
        JsNumber.fin ((start + counts.sum : Nat) : ℚ) := by
  induction variants with
  | nil =>
    intro counts start h _
    cases counts with
    | nil => simp
    | cons n rest => simp at h
  | cons v rest ih =>
    intro counts start h hle
    cases counts with
    | nil => simp at h
    | cons n ns =>
      simp only [List.map_cons, List.cons.injEq] at h
      simp only [List.sum_cons] at hle
      rw [List.foldl_cons, h.1, add_natCast start n (by omega),
        ih ns (start + n) h.2 (by omega), List.sum_cons, Nat.add_assoc]

/-- C14: whatever the search term, the group-by option, the selection and the
expanded groups, the footer of a rendered table shows the reduction
`variants.reduce((sum, v) => sum + v.inventory, 0)` over the whole variant list
handed to the table, so two renders of the same variant list show the same
total; on inventories that are natural numbers with a total of at most `2^53`
this reduction is their exact sum. -/
theorem totalInventory_independent (toLowerCase : String → String)
    (options : List ProductOption) (variants : List Variant) (state : TableState)
    (view : TableView)
    (hview : VariantsTable toLowerCase options variants state = Except.ok view) :
    view.totalInventory =
        variants.foldl (fun sum variant => sum.add variant.inventory) JsNumber.zero ∧
      (∀ (toLowerCase2 : String → String) (options2 : List ProductOption)
          (state2 : TableState) (view2 : TableView),
        VariantsTable toLowerCase2 options2 variants state2 = Except.ok view2 →
          view2.totalInventory = view.totalInventory) ∧
      (∀ counts : List Nat,
        variants.map (fun v => v.inventory) =
            counts.map (fun n : Nat => JsNumber.fin (n : ℚ)) →
          counts.sum ≤ 2 ^ 53 →
          view.totalInventory = JsNumber.fin ((counts.sum : Nat) : ℚ)) := by
  have htotal : ∀ (f : String → String) (o : List ProductOption) (s : TableState)
      (w : TableView), VariantsTable f o variants s = Except.ok w →
        w.totalInventory = sumInventory variants := by
    intro f o s w hw
    unfold VariantsTable at hw
    split at hw
    · simp at hw
    · simp only [Except.ok.injEq] at hw
      rw [← hw]
      rfl
  refine ⟨htotal _ _ _ _ hview, ?_, ?_⟩
  · intro f o s w hw
    rw [htotal _ _ _ _ hw, htotal _ _ _ _ hview]
  · intro counts hcounts hle
    rw [htotal _ _ _ _ hview]
    have h := foldl_add_natCast variants counts 0 hcounts (by omega)
    simpa [sumInventory, JsNumber.zero] using h

theorem totalInventory_independent_witness :
    (VariantsTable asciiToLowerCase sizeColorOptions stockedVariants sizeGroupedState =
        Except.ok (viewOf
          (VariantsTable asciiToLowerCase sizeColorOptions stockedVariants sizeGroupedState)) ∧
      VariantsTable asciiToLowerCase sizeColorOptions stockedVariants redSearchState =
        Except.ok (viewOf
          (VariantsTable asciiToLowerCase sizeColorOptions stockedVariants redSearchState)) ∧
      stockedVariants.map (fun v => v.inventory) =
        [5, 7, 0, 0].map (fun n : Nat => JsNumber.fin (n : ℚ)) ∧
      ([5, 7, 0, 0] : List Nat).sum ≤ 2 ^ 53) ∧
      (viewOf (VariantsTable asciiToLowerCase sizeColorOptions stockedVariants
          redSearchState)).totalInventory =
        (viewOf (VariantsTable asciiToLowerCase sizeColorOptions stockedVariants
          sizeGroupedState)).totalInventory ∧
      (viewOf (VariantsTable asciiToLowerCase sizeColorOptions stockedVariants
          sizeGroupedState)).totalInventory =
        JsNumber.fin ((([5, 7, 0, 0] : List Nat).sum : Nat) : ℚ) :=
  ⟨⟨rfl, rfl, by decide, by decide⟩,
    (totalInventory_independent asciiToLowerCase sizeColorOptions stockedVariants
      sizeGroupedState
      (viewOf (VariantsTable asciiToLowerCase sizeColorOptions stockedVariants sizeGroupedState))
      rfl).2.1 asciiToLowerCase sizeColorOptions redSearchState
      (viewOf (VariantsTable asciiToLowerCase sizeColorOptions stockedVariants redSearchState))
      rfl,
    (totalInventory_independent asciiToLowerCase sizeColorOptions stockedVariants
      sizeGroupedState
      (viewOf (VariantsTable asciiToLowerCase sizeColorOptions stockedVariants sizeGroupedState))
      rfl).2.2 [5, 7, 0, 0] (by decide) (by decide)⟩

/-- C15 (as amended): the inventory cell of a rendered group header is the
reduction of `inventory` over `filterVariants` of the group stored under the
group's name, that is over the members that match the search term; it is the
reduction over the whole stored group when the trimmed search term is empty. -/
theorem groupHeaderInventory_filtered (toLowerCase : String → String)
    (options : List ProductOption) (variants : List Variant) (state : TableState)
    (obj : PlainObject (List Variant))
    (hgrouped : groupVariants options variants state.groupBy =
      Except.ok (GroupResult.grouped obj)) :
    ∀ g ∈ renderedGroups toLowerCase state obj,
      ∃ members, obj.get g.groupName = PropertyRead.own members ∧
        g.variants = filterVariants toLowerCase state.searchTerm members ∧
        groupHeaderInventory g =
          (filterVariants toLowerCase state.searchTerm members).foldl
            (fun sum variant => sum.add variant.inventory) JsNumber.zero ∧
        (jsTrim state.searchTerm = "" →
          groupHeaderInventory g =
            members.foldl (fun sum variant => sum.add variant.inventory) JsNumber.zero) := by
  obtain ⟨i, _, _, _, hobj⟩ :=
    groupVariants_grouped_inv options variants state.groupBy obj hgrouped
  intro g hg
  obtain ⟨entry, hentry, hrender⟩ := List.mem_filterMap.1 hg
  have hvariants : g.variants = filterVariants toLowerCase state.searchTerm entry.2 ∧
      g.groupName = entry.1 := by
    unfold renderGroup at hrender
    simp only at hrender
    split at hrender
    · simp at hrender
    · simp only [Option.some.injEq] at hrender
      rw [← hrender]
      exact ⟨rfl, rfl⟩
  have hmem := (objectEntries_groupsOf_mem variants i entry.1 entry.2).1 (hobj ▸ hentry)
  have hget : obj.get g.groupName = PropertyRead.own entry.2 := by
    rw [hobj, hvariants.2]
    have hkey : entry.1 ∈ firstSeenKeys variants i := by
      obtain ⟨v, hv, hvk⟩ := hmem.1
      exact (mem_firstSeen _ _).2 (List.mem_map.2 ⟨v, hv, hvk⟩)
    simp only [PlainObject.get, groupsOf, lookup_map_pair, hkey, if_true]
    rw [hmem.2]
  refine ⟨entry.2, hget, hvariants.1, ?_, ?_⟩
  · simp only [groupHeaderInventory, sumInventory, hvariants.1]
  · intro hblank
    simp only [groupHeaderInventory, sumInventory, hvariants.1,
      filterVariants_of_blank toLowerCase state.searchTerm entry.2 hblank]

theorem groupHeaderInventory_filtered_witness :
    (groupVariants sizeColorOptions stockedVariants redSearchState.groupBy =
        Except.ok (GroupResult.grouped { own := groupsOf stockedVariants 0 }) ∧
      ({ groupName := "S", variants := filterVariants asciiToLowerCase "red"
            (stockedVariants.filter (fun v => groupKey v 0 == "S")),
          isExpanded := true } : GroupedVariantsProps) ∈
        renderedGroups asciiToLowerCase redSearchState { own := groupsOf stockedVariants 0 }) ∧
      ∃ members,
        PlainObject.get ({ own := groupsOf stockedVariants 0 } : PlainObject (List Variant))
            "S" = PropertyRead.own members ∧
          filterVariants asciiToLowerCase "red"
              (stockedVariants.filter (fun v => groupKey v 0 == "S")) =
            filterVariants asciiToLowerCase redSearchState.searchTerm members ∧
          groupHeaderInventory
              { groupName := "S", variants := filterVariants asciiToLowerCase "red"
                  (stockedVariants.filter (fun v => groupKey v 0 == "S")),
                isExpanded := true } =
            (filterVariants asciiToLowerCase redSearchState.searchTerm members).foldl
              (fun sum variant => sum.add variant.inventory) JsNumber.zero ∧
          (jsTrim redSearchState.searchTerm = "" →
            groupHeaderInventory
                { groupName := "S", variants := filterVariants asciiToLowerCase "red"
                    (stockedVariants.filter (fun v => groupKey v 0 == "S")),
                  isExpanded := true } =
              members.foldl (fun sum variant => sum.add variant.inventory) JsNumber.zero) :=
  ⟨⟨rfl, by decide⟩,
    groupHeaderInventory_filtered asciiToLowerCase sizeColorOptions stockedVariants
      redSearchState { own := groupsOf stockedVariants 0 } rfl
      { groupName := "S", variants := filterVariants asciiToLowerCase "red"
          (stockedVariants.filter (fun v => groupKey v 0 == "S")),
        isExpanded := true } (by decide)⟩

/-- C15 (the claim as stated fails): with the inventories 5 and 7 on the two
variants of the group `S` and the search term `red`, the header of the group `S`
shows 5, the inventory of its one matching variant, while the reduction over the
group as produced by `groupVariants` is 12. -/
theorem groupHeaderInventory_counterexample :
    (viewOf (VariantsTable asciiToLowerCase sizeColorOptions stockedVariants
          redSearchState)).groups.map
        (fun g => (g.groupName, g.variants.map (fun v => v.id), groupHeaderInventory g)) =
        [("S", [1], JsNumber.fin 5), ("M", [3], JsNumber.fin 0)] ∧
      (groupEntries sizeColorOptions stockedVariants "Size").map
        (fun entries => entries.map
          (fun entry => (entry.1, entry.2.map (fun v => v.id), sumInventory entry.2))) =
        some [("S", [1, 2], JsNumber.fin 12), ("M", [3, 4], JsNumber.fin 0)] := by
  refine ⟨by decide!, by decide!⟩
/-! ## Properties of the option edits -/

theorem find?_of_nodup_ids (options : List ProductOption) (optionId : Nat)
    (hids : (options.map (fun o => o.id)).Nodup) (target : ProductOption)
    (hmem : target ∈ options) (hid : target.id = optionId) :
    options.find? (fun opt => opt.id == optionId) = some target := by
  induction options with
  | nil => simp at hmem
  | cons o rest ih =>
    simp only [List.map_cons, List.nodup_cons] at hids
    rcases List.mem_cons.1 hmem with h | h
    · subst h
      simp [List.find?_cons, hid]
    · have hne : o.id ≠ optionId := by
        intro ho
        exact hids.1 (List.mem_map.2 ⟨target, h, by rw [hid, ho]⟩)
      have hb : (o.id == optionId) = false := by simpa using hne
      rw [List.find?_cons, hb]
      exact ih hids.2 h

theorem addValue_eq_some_iff (options : List ProductOption) (optionId : Nat)
    (newValue : String) (newOptions : List ProductOption) :
    addValue options optionId newValue = some newOptions ↔
      jsTrim newValue ≠ "" ∧
        (∀ target, options.find? (fun opt => opt.id == optionId) = some target →
          jsTrim newValue ∉ target.values) ∧
        newOptions = options.map (fun option =>
          if option.id = optionId then
            { option with values := option.values ++ [jsTrim newValue] }
          else option) := by
  unfold addValue
  by_cases hblank : jsTrim newValue = ""
  · have : strTruthy (jsTrim newValue) = false := by rw [hblank]; rfl
    rw [if_pos (by simp [this])]
    simp [hblank]
  · have htruthy : strTruthy (jsTrim newValue) = true := (strTruthy_eq_true_iff _).2 hblank
    simp only [htruthy, Bool.not_true, Bool.false_eq_true, if_false]
    cases hfind : options.find? (fun opt => opt.id == optionId) with
    | none => simp [hblank, eq_comm]
    | some target =>
      by_cases hdup : jsTrim newValue ∈ target.values
      · simp [hdup]
      · simp [hdup, hblank, eq_comm]

/-- C16 (as amended): `updateOptionName` with a name that is empty after
trimming, and `addValue` with a value that is empty after trimming or whose
trimmed form is already a value of the first option with that id, return before
`onOptionsChange`: the dashboard state stays as it is.  Otherwise `addValue`
appends the trimmed value to the values of the options with that id and changes
no other option; when the option ids are pairwise distinct it keeps every
option's values pairwise distinct. -/
theorem guarded_option_edits (s : DashboardState) (optionId : Nat) :
    (∀ newName : String, jsTrim newName = "" →
        updateOptionName s.options optionId newName = none ∧
          step s (Action.updateOptionName optionId newName) = s) ∧
      (∀ newValue : String, jsTrim newValue = "" →
        addValue s.options optionId newValue = none ∧
          step s (Action.addValue optionId newValue) = s) ∧
      (∀ (newValue : String) (target : ProductOption),
        s.options.find? (fun opt => opt.id == optionId) = some target →
        jsTrim newValue ∈ target.values →
        addValue s.options optionId newValue = none ∧
          step s (Action.addValue optionId newValue) = s) ∧
      (∀ newValue : String, jsTrim newValue ≠ "" →
        (∀ target, s.options.find? (fun opt => opt.id == optionId) = some target →
          jsTrim newValue ∉ target.values) →
        addValue s.options optionId newValue =
          some (s.options.map (fun option =>
            if option.id = optionId then
              { option with values := option.values ++ [jsTrim newValue] }
            else option))) ∧
      (∀ (newValue : String) (newOptions : List ProductOption),
        (s.options.map (fun o => o.id)).Nodup →
        (∀ option ∈ s.options, option.values.Nodup) →
        addValue s.options optionId newValue = some newOptions →
        ∀ option ∈ newOptions, option.values.Nodup) := by
  have hname : ∀ newName : String, jsTrim newName = "" →
      updateOptionName s.options optionId newName = none := by
    intro newName h
    have : strTruthy (jsTrim newName) = false := by rw [h]; rfl
    simp [updateOptionName, this]
  have hblank : ∀ newValue : String, jsTrim newValue = "" →
      addValue s.options optionId newValue = none := by
    intro newValue h
    have : strTruthy (jsTrim newValue) = false := by rw [h]; rfl
    simp [addValue, this]
  have hdup : ∀ (newValue : String) (target : ProductOption),
      s.options.find? (fun opt => opt.id == optionId) = some target →
      jsTrim newValue ∈ target.values → addValue s.options optionId newValue = none := by
    intro newValue target hfind hmem
    cases hres : addValue s.options optionId newValue with
    | none => rfl
    | some newOptions =>
      exact absurd hmem (((addValue_eq_some_iff _ _ _ _).1 hres).2.1 target hfind)
  refine ⟨?_, ?_, ?_, ?_, ?_⟩
  · intro newName h
    exact ⟨hname newName h, by simp [step, hname newName h, applyOptionsEdit]⟩
  · intro newValue h
    exact ⟨hblank newValue h, by simp [step, hblank newValue h, applyOptionsEdit]⟩
  · intro newValue target hfind hmem
    exact ⟨hdup newValue target hfind hmem,
      by simp [step, hdup newValue target hfind hmem, applyOptionsEdit]⟩
  · intro newValue hne hnot
    exact (addValue_eq_some_iff _ _ _ _).2 ⟨hne, hnot, rfl⟩
  · intro newValue newOptions hids hnodup hres
    obtain ⟨_, hnot, rfl⟩ := (addValue_eq_some_iff _ _ _ _).1 hres
    intro option hoption
    obtain ⟨o, ho, rfl⟩ := List.mem_map.1 hoption
    by_cases hid : o.id = optionId
    · simp only [hid, if_true]
      have hfind := find?_of_nodup_ids s.options optionId hids o ho hid
      have hfresh := hnot o hfind
      rw [List.nodup_append]
      refine ⟨hnodup o ho, by simp, ?_⟩
      intro a ha hb
      have : a = jsTrim newValue := by simpa using hb
      exact hfresh (this ▸ ha)
    · simp only [hid, if_false]
      exact hnodup o ho

theorem guarded_option_edits_witness :
    ((sizeColorOptions.map (fun o => o.id)).Nodup ∧
        (∀ option ∈ sizeColorOptions, option.values.Nodup) ∧
        addValue sizeColorOptions 1 " L " =
          some [{ id := 1, name := "Size", values := ["S", "M", "L"] },
                { id := 2, name := "Color", values := ["Red", "Blue"] }]) ∧
      ∀ option ∈ ([{ id := 1, name := "Size", values := ["S", "M", "L"] },
          { id := 2, name := "Color", values := ["Red", "Blue"] }] : List ProductOption),
        option.values.Nodup :=
  ⟨⟨by decide, by decide, by decide⟩,
    (guarded_option_edits (DashboardState.mk sizeColorOptions []) 1).2.2.2.2 " L " _
      (by decide) (by decide) (by decide)⟩
/-- C16 (the claim as stated fails): when two options carry one id, the
duplicate check of `addValue` reads only the first of them and the value is
appended to both, so an option whose values were pairwise distinct ends with a
repeated value; such a list is reached when `Date.now()` returns one number for
two `addOption` calls. -/
theorem addValue_shared_id_counterexample :
    ((∀ option ∈ sharedIdOptions, option.values.Nodup) ∧
        addValue sharedIdOptions 1 "b" =
          some [{ id := 1, name := "A", values := ["a", "b"] },
                { id := 1, name := "B", values := ["b", "b"] }] ∧
        ¬ (["b", "b"] : List String).Nodup) ∧
      (Reachable (run initialState sharedIdRun) ∧
        (run initialState sharedIdRun).options =
          [{ id := 1700000000000, name := "A", values := ["a", "b"] },
           { id := 1700000000000, name := "", values := ["b", "b"] }]) := by
  refine ⟨⟨by decide, by decide, by decide⟩, reachable_run _ _ Reachable.init, by decide⟩

theorem map_id_of_same_id (options : List ProductOption) (f : ProductOption → ProductOption)
    (h : ∀ o, (f o).id = o.id) :
    (options.map f).map (fun o => o.id) = options.map (fun o => o.id) := by
  simp [List.map_map, Function.comp_def, h]

theorem filterOutIndex_sublist (values : List String) (valueIndex : Nat) :
    (filterOutIndex values valueIndex).Sublist values := by
  unfold filterOutIndex
  have h := ((List.filter_sublist (p := fun entry : Nat × String => entry.1 != valueIndex)
    values.enum).map Prod.snd)
  rwa [List.enum_map_snd] at h

/-- Along the option edits other than `updateValue`, with every new option
receiving an id not in use, the option ids stay pairwise distinct and every
option's values stay pairwise distinct, non-empty strings. -/
theorem valuesWellFormed_of_editReachable (options : List ProductOption)
    (h : EditReachable options) : valuesWellFormed options := by
  induction h with
  | init => exact ⟨by simp, by simp⟩
  | addOption options now newOptions _ hfresh hres ih =>
    simp only [addOption, Option.some.injEq] at hres
    subst hres
    refine ⟨?_, ?_⟩
    · rw [List.map_append, List.nodup_append]
      refine ⟨ih.1, by simp, ?_⟩
      intro a ha hb
      obtain ⟨o, ho, rfl⟩ := List.mem_map.1 ha
      have : o.id = now := by simpa using hb
      exact hfresh o ho this
    · intro option hoption
      rcases List.mem_append.1 hoption with hin | hin
      · exact ih.2 option hin
      · have : option = { id := now, name := "", values := [] } := by simpa using hin
        subst this
        simp
  | deleteOption options optionId newOptions _ hres ih =>
    simp only [deleteOption, Option.some.injEq] at hres
    subst hres
    refine ⟨(ih.1.sublist ((List.filter_sublist options).map _)), ?_⟩
    intro option hoption
    exact ih.2 option (List.mem_of_mem_filter hoption)
  | updateOptionName options optionId newName newOptions _ hres ih =>
    unfold updateOptionName at hres
    split at hres
    · simp at hres
    · simp only [Option.some.injEq] at hres
      subst hres
      refine ⟨?_, ?_⟩
      · rw [map_id_of_same_id]
        · exact ih.1
        · intro o; split <;> rfl
      · intro option hoption
        obtain ⟨o, ho, rfl⟩ := List.mem_map.1 hoption
        by_cases hid : o.id = optionId
        · simp only [hid, if_true]
          exact ih.2 o ho
        · simp only [hid, if_false]
          exact ih.2 o ho
  | addValue options optionId newValue newOptions _ hres ih =>
    obtain ⟨hne, hnot, rfl⟩ := (addValue_eq_some_iff _ _ _ _).1 hres
    refine ⟨?_, ?_⟩
    · rw [map_id_of_same_id]
      · exact ih.1
      · intro o; split <;> rfl
    · intro option hoption
      obtain ⟨o, ho, rfl⟩ := List.mem_map.1 hoption
      by_cases hid : o.id = optionId
      · simp only [hid, if_true]
        have hfresh := hnot o (find?_of_nodup_ids options optionId ih.1 o ho hid)
        refine ⟨?_, ?_⟩
        · rw [List.nodup_append]
          refine ⟨(ih.2 o ho).1, by simp, ?_⟩
          intro a ha hb
          have : a = jsTrim newValue := by simpa using hb
          exact hfresh (this ▸ ha)
        · intro value hvalue
          rcases List.mem_append.1 hvalue with hin | hin
          · exact (ih.2 o ho).2 value hin
          · have : value = jsTrim newValue := by simpa using hin
            rw [this]
            exact hne
      · simp only [hid, if_false]
        exact ih.2 o ho
  | deleteValue options optionId valueIndex newOptions _ hres ih =>
    simp only [deleteValue, Option.some.injEq] at hres
    subst hres
    refine ⟨?_, ?_⟩
    · rw [map_id_of_same_id]
      · exact ih.1
      · intro o; split <;> rfl
    · intro option hoption
      obtain ⟨o, ho, rfl⟩ := List.mem_map.1 hoption
      by_cases hid : o.id = optionId
      · simp only [hid, if_true]
        have hsub := filterOutIndex_sublist o.values valueIndex
        exact ⟨(ih.2 o ho).1.sublist hsub, fun value hvalue =>
          (ih.2 o ho).2 value (hsub.subset hvalue)⟩
      · simp only [hid, if_false]
        exact ih.2 o ho

/-- C17 (the code at the failing inputs): `updateValue` writes a value equal to
another value of the option, and the empty string, into the option list, where
`addValue` rejects both; `updateOptionName` gives an option the name of another
one; and an option list with a repeated value is reached from the initial
state. -/
theorem updateValue_unguarded :
    updateValue sizeColorOptions 1 1 "S" =
        some [{ id := 1, name := "Size", values := ["S", "S"] },
              { id := 2, name := "Color", values := ["Red", "Blue"] }] ∧
      updateValue sizeColorOptions 1 0 "" =
        some [{ id := 1, name := "Size", values := ["", "M"] },
              { id := 2, name := "Color", values := ["Red", "Blue"] }] ∧
      updateOptionName sizeColorOptions 2 " Size" =
        some [{ id := 1, name := "Size", values := ["S", "M"] },
              { id := 2, name := "Size", values := ["Red", "Blue"] }] ∧
      (Reachable (run initialState repeatedValueRun) ∧
        (run initialState repeatedValueRun).options =
          [{ id := 1700000000000, name := "Size", values := ["S", "S"] }]) := by
  refine ⟨by decide, by decide, by decide, reachable_run _ _ Reachable.init, by decide⟩
/-! ## Updates addressed to an unknown id -/

theorem map_if_unknown (options : List ProductOption) (optionId : Nat)
    (f : ProductOption → ProductOption) (h : ∀ option ∈ options, option.id ≠ optionId) :
    options.map (fun option => if option.id = optionId then f option else option) =
      options := by
  conv_rhs => rw [← List.map_id options]
  apply List.map_congr_left
  intro o ho
  simp [h o ho]

theorem find?_unknown (options : List ProductOption) (optionId : Nat)
    (h : ∀ option ∈ options, option.id ≠ optionId) :
    options.find? (fun opt => opt.id == optionId) = none := by
  rw [List.find?_eq_none]
  intro o ho
  simpa using h o ho

theorem step_unknown_option (s : DashboardState) (a : Action) (optionId : Nat)
    (htarget : a.targetOptionId = some optionId)
    (hunknown : ∀ option ∈ s.options, option.id ≠ optionId) :
    (a.hasBlankInput = true → step s a = s) ∧
      (a.hasBlankInput = false →
        step s a = { options := s.options, variants := generateVariants s.options }) := by
  cases a with
  | addOption now => simp [Action.targetOptionId] at htarget
  | variantUpdate variantId field value => simp [Action.targetOptionId] at htarget
  | deleteOption id =>
    simp only [Action.targetOptionId, Option.some.injEq] at htarget
    subst htarget
    refine ⟨by simp [Action.hasBlankInput], fun _ => ?_⟩
    have : s.options.filter (fun option => option.id != id) = s.options := by
      rw [List.filter_eq_self]
      intro o ho
      simpa using hunknown o ho
    simp [step, deleteOption, applyOptionsEdit, handleOptionsChange, this]
  | updateOptionName id newName =>
    simp only [Action.targetOptionId, Option.some.injEq] at htarget
    subst htarget
    constructor
    · intro hblank
      simp only [Action.hasBlankInput] at hblank
      simp [step, updateOptionName, hblank, applyOptionsEdit]
    · intro hblank
      simp only [Action.hasBlankInput] at hblank
      simp [step, updateOptionName, hblank, applyOptionsEdit, handleOptionsChange,
        map_if_unknown s.options id _ hunknown]
  | addValue id newValue =>
    simp only [Action.targetOptionId, Option.some.injEq] at htarget
    subst htarget
    constructor
    · intro hblank
      simp only [Action.hasBlankInput] at hblank
      simp [step, addValue, hblank, applyOptionsEdit]
    · intro hblank
      simp only [Action.hasBlankInput] at hblank
      simp [step, addValue, hblank, applyOptionsEdit, handleOptionsChange,
        find?_unknown s.options id hunknown, map_if_unknown s.options id _ hunknown]
  | deleteValue id valueIndex =>
    simp only [Action.targetOptionId, Option.some.injEq] at htarget
    subst htarget
    refine ⟨by simp [Action.hasBlankInput], fun _ => ?_⟩
    simp [step, deleteValue, applyOptionsEdit, handleOptionsChange,
      map_if_unknown s.options id _ hunknown]
  | updateValue id valueIndex newValue =>
    simp only [Action.targetOptionId, Option.some.injEq] at htarget
    subst htarget
    refine ⟨by simp [Action.hasBlankInput], fun _ => ?_⟩
    simp [step, updateValue, applyOptionsEdit, handleOptionsChange,
      map_if_unknown s.options id _ hunknown]

theorem applyOptionsEdit_shape (s : DashboardState) (edit : Option (List ProductOption))
    (h : s.variants.map (fun v => (v.id, v.combination)) =
      (generateVariants s.options).map (fun v => (v.id, v.combination))) :
    (applyOptionsEdit s edit).variants.map (fun v => (v.id, v.combination)) =
      (generateVariants (applyOptionsEdit s edit).options).map
        (fun v => (v.id, v.combination)) := by
  cases edit with
  | none => exact h
  | some newOptions => rfl

/-- In every reachable state the variant list has the ids and combinations of
`generateVariants(options)`: only prices and inventories can differ. -/
theorem reachable_variants_shape (s : DashboardState) (h : Reachable s) :
    s.variants.map (fun v => (v.id, v.combination)) =
      (generateVariants s.options).map (fun v => (v.id, v.combination)) := by
  induction h with
  | init => decide
  | step s a _ ih =>
    cases a with
    | variantUpdate variantId field value =>
      simp only [step, handleVariantUpdate, List.map_map]
      rw [← ih]
      apply List.map_congr_left
      intro v _
      simp only [Function.comp]
      split
      · rw [(setField_frame v field value).1, (setField_frame v field value).2.1]
      · rfl
    | addOption now => exact applyOptionsEdit_shape s _ ih
    | deleteOption optionId => exact applyOptionsEdit_shape s _ ih
    | updateOptionName optionId newName => exact applyOptionsEdit_shape s _ ih
    | addValue optionId newValue => exact applyOptionsEdit_shape s _ ih
    | deleteValue optionId valueIndex => exact applyOptionsEdit_shape s _ ih
    | updateValue optionId valueIndex newValue => exact applyOptionsEdit_shape s _ ih

/-- C18 (as amended): `handleVariantUpdate` with an id of no variant leaves the
state as it is.  An option edit addressed to an id of no option leaves the
option list as it is; when its guard on empty input returns early the whole
state is unchanged, otherwise `onOptionsChange` runs and the variant list
becomes `generateVariants(options)`: in a reachable state the variants keep
their ids and combinations, and every price and inventory is 0 again. -/
theorem unknown_id_updates (s : DashboardState) :
    (∀ (variantId : Nat) (field : Field) (value : String),
        (∀ v ∈ s.variants, v.id ≠ variantId) →
          step s (Action.variantUpdate variantId field value) = s) ∧
      (∀ (a : Action) (optionId : Nat), a.targetOptionId = some optionId →
        (∀ option ∈ s.options, option.id ≠ optionId) →
          (step s a).options = s.options ∧
            (a.hasBlankInput = true → step s a = s) ∧
            (a.hasBlankInput = false →
              (step s a).variants = generateVariants s.options ∧
                (∀ v ∈ (step s a).variants,
                  v.price = JsNumber.zero ∧ v.inventory = JsNumber.zero) ∧
                (Reachable s →
                  (step s a).variants.map (fun v => (v.id, v.combination)) =
                    s.variants.map (fun v => (v.id, v.combination))))) := by
  constructor
  · intro variantId field value hunknown
    have : handleVariantUpdate s.variants variantId field value = s.variants := by
      unfold handleVariantUpdate
      conv_rhs => rw [← List.map_id s.variants]
      apply List.map_congr_left
      intro v hv
      simp [hunknown v hv]
    simp [step, this]
  · intro a optionId htarget hunknown
    obtain ⟨hblank, hrun⟩ := step_unknown_option s a optionId htarget hunknown
    refine ⟨?_, hblank, ?_⟩
    · cases hb : a.hasBlankInput with
      | true => rw [hblank hb]
      | false => rw [hrun hb]
    · intro hb
      rw [hrun hb]
      refine ⟨rfl, generateVariants_defaults s.options, fun hreach => ?_⟩
      exact (reachable_variants_shape s hreach).symm

theorem unknown_id_updates_witness :
    ((Action.deleteOption 99).targetOptionId = some 99 ∧
        (∀ option ∈ (run initialState pricedRun).options, option.id ≠ 99)) ∧
      (step (run initialState pricedRun) (Action.deleteOption 99)).options =
        (run initialState pricedRun).options :=
  ⟨⟨rfl, by decide⟩,
    ((unknown_id_updates (run initialState pricedRun)).2 (Action.deleteOption 99) 99 rfl
      (by decide)).1⟩

/-- C18 (the claim as stated fails): after the price `12` was entered for
variant 1, `deleteOption` with the id 99 of no option leaves the option list as
it was, yet the variant list is regenerated and the price is 0 again. -/
theorem unknown_id_updates_counterexample :
    (∀ option ∈ (run initialState pricedRun).options, option.id ≠ 99) ∧
      (run initialState pricedRun).variants =
        [{ id := 1, combination := ["S"], price := JsNumber.fin 12,
           inventory := JsNumber.fin 0 }] ∧
      (step (run initialState pricedRun) (Action.deleteOption 99)).options =
        (run initialState pricedRun).options ∧
      (step (run initialState pricedRun) (Action.deleteOption 99)).variants =
        [{ id := 1, combination := ["S"], price := JsNumber.fin 0,
           inventory := JsNumber.fin 0 }] := by
  refine ⟨by decide, by decide, by decide, by decide⟩
/-! ## Grouping on values that name inherited properties -/

/-- C19 (the code at the failing inputs): the option `Size` with the only value
`toString`, built by the option edits, generates one variant; a fresh table
groups by `Size`, and `groupVariants` throws a `TypeError`, so the render of
`VariantsTable` throws.  The same happens with the values `S` and `__proto__`. -/
theorem groupVariants_throws_on_inherited_name :
    (Reachable (run initialState inheritedNameRun) ∧
        (run initialState inheritedNameRun).options =
          [{ id := 1700000000000, name := "Size", values := ["toString"] }] ∧
        (run initialState inheritedNameRun).variants =
          [{ id := 1, combination := ["toString"], price := JsNumber.zero,
             inventory := JsNumber.zero }] ∧
        (initialTableState (run initialState inheritedNameRun).options).groupBy = "Size" ∧
        groupVariants (run initialState inheritedNameRun).options
            (run initialState inheritedNameRun).variants "Size" =
          Except.error JsError.typeError ∧
        (match VariantsTable asciiToLowerCase (run initialState inheritedNameRun).options
            (run initialState inheritedNameRun).variants
            (initialTableState (run initialState inheritedNameRun).options) with
          | Except.error JsError.typeError => true
          | Except.ok _ => false) = true) ∧
      (Reachable (run initialState protoNameRun) ∧
        (run initialState protoNameRun).variants.map (fun v => v.combination) =
          [["S"], ["__proto__"]] ∧
        groupVariants (run initialState protoNameRun).options
            (run initialState protoNameRun).variants "Size" =
          Except.error JsError.typeError) := by
  refine ⟨⟨reachable_run _ _ Reachable.init, by decide, by decide, by decide, rfl, by decide⟩,
    ⟨reachable_run _ _ Reachable.init, by decide, rfl⟩⟩

/-! ## Properties of the selection -/

theorem toggleVariantSelection_invariant (variants : List Variant) (selection : List Nat)
    (variant : Variant) (hmem : variant ∈ variants) (hnodup : selection.Nodup)
    (hsub : ∀ id ∈ selection, ∃ v ∈ variants, v.id = id) :
    (toggleVariantSelection selection variant.id).Nodup ∧
      ∀ id ∈ toggleVariantSelection selection variant.id, ∃ v ∈ variants, v.id = id := by
  unfold toggleVariantSelection
  by_cases hin : variant.id ∈ selection
  · have hc : selection.contains variant.id = true := by simpa using hin
    rw [if_pos hc]
    exact ⟨hnodup.filter _, fun id hid => hsub id (List.mem_of_mem_filter hid)⟩
  · have hc : selection.contains variant.id = false := by simpa using hin
    simp only [hc, Bool.false_eq_true, if_false]
    constructor
    · rw [List.nodup_append]
      refine ⟨hnodup, by simp, ?_⟩
      intro a ha hb
      have : a = variant.id := by simpa using hb
      exact hin (this ▸ ha)
    · intro id hid
      rcases List.mem_append.1 hid with h | h
      · exact hsub id h
      · exact ⟨variant, hmem, (by simpa using h : id = variant.id).symm⟩

theorem toggleGroupSelection_invariant (variants : List Variant) (members : List Variant) :
    ∀ selection : List Nat, (∀ v ∈ members, v ∈ variants) → selection.Nodup →
      (∀ id ∈ selection, ∃ v ∈ variants, v.id = id) →
      (toggleGroupSelection members selection).Nodup ∧
        ∀ id ∈ toggleGroupSelection members selection, ∃ v ∈ variants, v.id = id := by
  induction members with
  | nil => intro selection _ hnodup hsub; exact ⟨hnodup, hsub⟩
  | cons m rest ih =>
    intro selection hmem hnodup hsub
    have hstep := toggleVariantSelection_invariant variants selection m
      (hmem m (List.mem_cons_self _ _)) hnodup hsub
    exact ih (toggleVariantSelection selection m.id)
      (fun v hv => hmem v (List.mem_cons_of_mem _ hv)) hstep.1 hstep.2

theorem selection_nodup_subset (variants : List Variant)
    (hids : (variants.map (fun v => v.id)).Nodup) (selection : List Nat)
    (h : SelectionReachable variants selection) :
    selection.Nodup ∧ ∀ id ∈ selection, ∃ v ∈ variants, v.id = id := by
  induction h with
  | init => exact ⟨List.nodup_nil, by simp⟩
  | toggle selection variant _ hmem ih =>
    exact toggleVariantSelection_invariant variants selection variant hmem ih.1 ih.2
  | selectAll selection _ ih =>
    unfold toggleSelectAll
    split
    · exact ⟨List.nodup_nil, by simp⟩
    · refine ⟨hids, ?_⟩
      intro id hid
      obtain ⟨v, hv, rfl⟩ := List.mem_map.1 hid
      exact ⟨v, hv, rfl⟩
  | group selection members _ hmem ih =>
    exact toggleGroupSelection_invariant variants members selection hmem ih.1 ih.2

theorem length_eq_iff_allSelected (variants : List Variant)
    (hids : (variants.map (fun v => v.id)).Nodup) (selection : List Nat)
    (hnodup : selection.Nodup) (hsub : ∀ id ∈ selection, ∃ v ∈ variants, v.id = id) :
    selection.length = variants.length ↔ allSelected variants selection := by
  have hsubset : selection ⊆ variants.map (fun v => v.id) := by
    intro id hid
    obtain ⟨v, hv, rfl⟩ := hsub id hid
    exact List.mem_map.2 ⟨v, hv, rfl⟩
  have hsubperm : selection.Subperm (variants.map (fun v => v.id)) :=
    hnodup.subperm hsubset
  constructor
  · intro hlen v hv
    have hperm : selection.Perm (variants.map (fun v => v.id)) :=
      hsubperm.perm_of_length_le (by simp [hlen])
    exact hperm.mem_iff.2 (List.mem_map.2 ⟨v, hv, rfl⟩)
  · intro hall
    have hsubset2 : variants.map (fun v => v.id) ⊆ selection := by
      intro id hid
      obtain ⟨v, hv, rfl⟩ := List.mem_map.1 hid
      exact hall v hv
    have h1 := hsubperm.length_le
    have h2 := (hids.subperm hsubset2).length_le
    simp only [List.length_map] at h1 h2
    omega

/-- C20: for a variant list with pairwise distinct ids, a selection reached
from the empty one by toggling current variants, the header checkbox and group
checkboxes holds no id twice and only ids of current variants; so its length is
the variant count exactly when every variant is selected, which is when the
header checkbox is checked and `toggleSelectAll` clears the selection instead
of selecting all ids. -/
theorem selection_invariant (variants : List Variant)
    (hids : (variants.map (fun v => v.id)).Nodup) (selection : List Nat)
    (h : SelectionReachable variants selection) :
    selection.Nodup ∧
      (∀ id ∈ selection, ∃ v ∈ variants, v.id = id) ∧
      (selection.length = variants.length ↔ allSelected variants selection) ∧
      (headerChecked variants selection = true ↔ allSelected variants selection) ∧
      toggleSelectAll variants selection =
        if allSelected variants selection then [] else variants.map (fun v => v.id) := by
  obtain ⟨hnodup, hsub⟩ := selection_nodup_subset variants hids selection h
  have hiff := length_eq_iff_allSelected variants hids selection hnodup hsub
  refine ⟨hnodup, hsub, hiff, ?_, ?_⟩
  · rw [← hiff]
    simp [headerChecked]
  · unfold toggleSelectAll
    by_cases hall : allSelected variants selection
    · rw [if_pos (hiff.2 hall), if_pos hall]
    · rw [if_neg (fun hlen => hall (hiff.1 hlen)), if_neg hall]

theorem selection_invariant_witness :
    (((generateVariants sizeColorOptions).map (fun v => v.id)).Nodup ∧
        SelectionReachable (generateVariants sizeColorOptions) [1, 2, 3, 4]) ∧
      ([1, 2, 3, 4] : List Nat).Nodup ∧
      (headerChecked (generateVariants sizeColorOptions) [1, 2, 3, 4] = true ↔
        allSelected (generateVariants sizeColorOptions) [1, 2, 3, 4]) ∧
      toggleSelectAll (generateVariants sizeColorOptions) [1, 2, 3, 4] = [] :=
  have hreach : SelectionReachable (generateVariants sizeColorOptions) [1, 2, 3, 4] :=
    SelectionReachable.selectAll [1]
      (SelectionReachable.group [2]
        [{ id := 1, combination := ["S", "Red"], price := JsNumber.zero,
           inventory := JsNumber.zero },
         { id := 2, combination := ["S", "Blue"], price := JsNumber.zero,
           inventory := JsNumber.zero }]
        (SelectionReachable.toggle []
          { id := 2, combination := ["S", "Blue"], price := JsNumber.zero,
            inventory := JsNumber.zero }
          SelectionReachable.init (by decide))
        (by decide))
  have hinv := selection_invariant (generateVariants sizeColorOptions) (by decide)
    [1, 2, 3, 4] hreach
  ⟨⟨by decide, hreach⟩, hinv.1, hinv.2.2.2.1, by rw [hinv.2.2.2.2]; decide⟩

end ShopifyVariants
